import Mathlib

/-! A verification development for `file_system.cpp`.

The program keeps an in-memory tree of files and directories in a
first-child / next-sibling encoding (`left` is the first child, `right` the
next sibling, `parent` the containing node) together with a cursor `current`.

Embedding.

* A `FileNode` value is a node together with everything it owns.  The field
  `left` holds the whole chain `left, left->right, left->right->right, …`
  as a list, so `[]` is the null pointer and the tail of a chain is the
  `right` link of its head.
* A pointer `FileNode*` into the tree is the list of child indices leading
  from the root to the node (`Ptr`); the root itself is `[]`.  The `parent`
  link of the node at `p ++ [i]` is `p`: `create` is the only place that
  writes `parent`, and it writes the directory whose chain receives the node.
* `int` is modelled by `Int`; the result of every `int` addition is brought
  back into the range of a 32-bit `int` by `wrapInt`.
* `std::string` is modelled by `String`, character operations by its list of
  characters.
* Methods that mutate the file system return the new state next to their
  C++ return value.
-/

/-! ## Definitions -/

/-- The enumeration `FileType`. -/
inductive FileType where
  | DIRECTORY
  | TEXT
  | IMAGE
  | VIDEO
  | AUDIO
  | OTHER
  deriving DecidableEq, Repr

/-- Model of `s.find(c)` for a character `c`: the index of the first
occurrence, `none` standing for `npos`. -/
def strFind : List Char → Char → Option Nat
  | [], _ => none
  | x :: xs, c => if x = c then some 0 else (strFind xs c).map (· + 1)

/-- Model of `s.find_last_of(c)` for a character `c`: the index of the last
occurrence, `none` standing for `npos`. -/
def strFindLastOf : List Char → Char → Option Nat
  | [], _ => none
  | x :: xs, c =>
    match strFindLastOf xs c with
    | some i => some (i + 1)
    | none => if x = c then some 0 else none

/-- Model of `s.substr(pos)`. -/
def strSubstr (s : List Char) (pos : Nat) : List Char := s.drop pos

/-- Model of `transform(ext.begin(), ext.end(), ext.begin(), ::tolower)`. -/
def strToLower (s : List Char) : List Char := s.map Char.toLower

/-- Embedding of `getFileTypeByExtension` (lines 20-33). -/
def getFileTypeByExtension (name : String) : FileType :=
  if strFind name.data '.' = none then FileType.DIRECTORY
  else
    let ext := strSubstr name.data
      (match strFindLastOf name.data '.' with
       | some i => i + 1
       | none => 0)
    let ext := String.mk (strToLower ext)
    if ext = "txt" ∨ ext = "doc" ∨ ext = "pdf" then FileType.TEXT
    else if ext = "jpg" ∨ ext = "png" ∨ ext = "gif" then FileType.IMAGE
    else if ext = "mp4" ∨ ext = "avi" ∨ ext = "mov" then FileType.VIDEO
    else if ext = "mp3" ∨ ext = "wav" ∨ ext = "flac" then FileType.AUDIO
    else FileType.OTHER

/-- Model of `s.find(t)` for a string `t`: the first position at which `t`
occurs in `s`, `none` standing for `npos`. -/
def strFindStr : List Char → List Char → Option Nat
  | [], t => if t = [] then some 0 else none
  | x :: xs, t =>
    if t.isPrefixOf (x :: xs) then some 0 else (strFindStr xs t).map (· + 1)

/-- The class `FileNode` (lines 36-66).  `left` is the chain of children
(first child, then its `right` siblings); `right` and `parent` are given by
the position of the node in the tree. -/
inductive FileNode where
  | mk (name : String) (type : FileType) (size : Int) (left : List FileNode)

namespace FileNode

/-- Field `name`. -/
def name : FileNode → String
  | mk n _ _ _ => n

/-- Field `type`. -/
def type : FileNode → FileType
  | mk _ t _ _ => t

/-- Field `size`. -/
def size : FileNode → Int
  | mk _ _ s _ => s

/-- Field `left`, as the chain of all children. -/
def left : FileNode → List FileNode
  | mk _ _ _ l => l

/-- Method `isDirectory` (lines 50-52). -/
def isDirectory (n : FileNode) : Bool := decide (n.type = FileType.DIRECTORY)

end FileNode

/-- A pointer into the tree: the child indices from the root to the node. -/
abbrev Ptr := List Nat

/-- Dereference of a pointer inside the tree owned by a node; `none` when the
pointer designates no node. -/
def FileNode.deref : FileNode → Ptr → Option FileNode
  | n, [] => some n
  | n, i :: p =>
    match n.left[i]? with
    | some c => c.deref p
    | none => none

/-- Write through a pointer: the node designated by the pointer is replaced by
`f` of it, everything else stays. -/
def FileNode.update : FileNode → Ptr → (FileNode → FileNode) → FileNode
  | n, [], f => f n
  | n, i :: p, f =>
    FileNode.mk n.name n.type n.size (n.left.modify (fun c => c.update p f) i)

/-- The class `FileSystem` (lines 69-73): the root and the cursor. -/
structure FileSystem where
  root : FileNode
  current : Ptr

namespace FileSystem

/-- The constructor (lines 106-110): `new FileNode("root")` with the default
type `DIRECTORY` and size `0`, and the cursor on it. -/
def init : FileSystem :=
  { root := FileNode.mk "root" FileType.DIRECTORY 0 [], current := [] }

/-- The loop of `findInCurrentDir` (lines 79-84): `i` is the index of `temp`
in the chain.  The result is the index of the node found (the pointer is
`current ++ [i]`) together with the node. -/
def findLoop : List FileNode → String → Nat → Option (Nat × FileNode)
  | [], _, _ => none
  | temp :: right, name, i =>
    if temp.name = name then some (i, temp) else findLoop right name (i + 1)

/-- Embedding of `findInCurrentDir` (lines 75-86). -/
def findInCurrentDir (fs : FileSystem) (name : String) : Option (Nat × FileNode) :=
  match fs.root.deref fs.current with
  | none => none
  | some cur => findLoop cur.left name 0

/-- The loop of `create` (lines 142-146): walk to the last node of the chain
and store the new node in its `right` link. -/
def linkAfterLast : FileNode → List FileNode → FileNode → List FileNode
  | temp, [], newNode => [temp, newNode]
  | temp, next :: right, newNode => temp :: linkAfterLast next right newNode

/-- Embedding of `create` (lines 124-150). -/
def create (fs : FileSystem) (name : String) (isDirectory : Bool) (size : Int) :
    Bool × FileSystem :=
  if (fs.findInCurrentDir name).isSome then (false, fs)
  else
    let type := if isDirectory then FileType.DIRECTORY else getFileTypeByExtension name
    let newNode := FileNode.mk name type size []
    (true,
      { fs with
        root := fs.root.update fs.current (fun cur =>
          match cur.left with
          | [] => FileNode.mk cur.name cur.type cur.size [newNode]
          | temp :: right =>
            FileNode.mk cur.name cur.type cur.size (linkAfterLast temp right newNode)) })

/-- The loop of `remove` (lines 167-173): `i` is the index of `temp`, `k` the
index of `toDelete`; the node before `toDelete` gets `toDelete->right` as its
`right` link. -/
def unlinkLoop : List FileNode → Nat → Nat → List FileNode
  | [], _, _ => []
  | temp :: right, i, k =>
    if i + 1 = k then temp :: right.drop 1 else temp :: unlinkLoop right (i + 1) k

/-- Embedding of `remove` (lines 153-179).  The subtree handed to `deleteNode`
is no longer part of the state. -/
def remove (fs : FileSystem) (name : String) : Bool × FileSystem :=
  match fs.findInCurrentDir name with
  | none => (false, fs)
  | some toDelete =>
    (true,
      { fs with
        root := fs.root.update fs.current (fun cur =>
          if toDelete.1 = 0 then FileNode.mk cur.name cur.type cur.size (cur.left.drop 1)
          else FileNode.mk cur.name cur.type cur.size (unlinkLoop cur.left 0 toDelete.1)) })

/-- Embedding of `rename` (lines 182-204). -/
def rename (fs : FileSystem) (oldName newName : String) : Bool × FileSystem :=
  match fs.findInCurrentDir oldName with
  | none => (false, fs)
  | some target =>
    if (fs.findInCurrentDir newName).isSome then (false, fs)
    else
      (true,
        { fs with
          root := fs.root.update (fs.current ++ [target.1]) (fun t =>
            FileNode.mk newName
              (if !t.isDirectory then getFileTypeByExtension newName else t.type)
              t.size t.left) })

/-- Embedding of `enterDirectory` (lines 207-221). -/
def enterDirectory (fs : FileSystem) (name : String) : Bool × FileSystem :=
  match fs.findInCurrentDir name with
  | none => (false, fs)
  | some dir =>
    if !dir.2.isDirectory then (false, fs)
    else (true, { fs with current := fs.current ++ [dir.1] })

/-- Embedding of `goUp` (lines 224-232): the root is the pointer `[]`, the
parent of `p ++ [i]` is `p`. -/
def goUp (fs : FileSystem) : Bool × FileSystem :=
  if fs.current = [] then (false, fs)
  else (true, { fs with current := fs.current.dropLast })

end FileSystem

mutual
/-- Embedding of `searchByName` (lines 254-268) for a non-null `node`, given by
the node and its address. -/
def FileNode.searchByName : FileNode → Ptr → String → List Ptr → List Ptr
  | FileNode.mk name _ _ left, node, keyword, results =>
    FileNode.searchByNameLoop left node 0 keyword
      (if strFindStr name.data keyword.data ≠ none then results ++ [node] else results)
/-- The loop of `searchByName` (lines 264-267) over the chain starting at
`child`, the child number `i` of `node`. -/
def FileNode.searchByNameLoop : List FileNode → Ptr → Nat → String → List Ptr → List Ptr
  | [], _, _, _, results => results
  | child :: right, node, i, keyword, results =>
    FileNode.searchByNameLoop right node (i + 1) keyword
      (FileNode.searchByName child (node ++ [i]) keyword results)
end

/-- Embedding of `searchByName` (lines 254-268), null pointer included. -/
def FileSystem.searchByName (fs : FileSystem) (node : Ptr) (keyword : String)
    (results : List Ptr) : List Ptr :=
  match fs.root.deref node with
  | none => results
  | some n => n.searchByName node keyword results

/-- The array `vector<FileNode*> types[6]`, indexed by the enumeration. -/
abbrev Buckets := FileType → List Ptr

/-- Statement `types[t].push_back(p)`. -/
def Buckets.pushBack (types : Buckets) (t : FileType) (p : Ptr) : Buckets :=
  fun u => if u = t then types u ++ [p] else types u

mutual
/-- Embedding of `classifyByType` (lines 271-283) for a non-null `node`, given
by the node and its address. -/
def FileNode.classifyByType : FileNode → Ptr → Buckets → Buckets
  | FileNode.mk _ type _ left, node, types =>
    (FileNode.classifyByTypeLoop left node 0 types).pushBack type node
/-- The loop of `classifyByType` (lines 276-279). -/
def FileNode.classifyByTypeLoop : List FileNode → Ptr → Nat → Buckets → Buckets
  | [], _, _, types => types
  | child :: right, node, i, types =>
    FileNode.classifyByTypeLoop right node (i + 1)
      (FileNode.classifyByType child (node ++ [i]) types)
end

/-- Embedding of `classifyByType` (lines 271-283), null pointer included. -/
def FileSystem.classifyByType (fs : FileSystem) (node : Ptr) (types : Buckets) : Buckets :=
  match fs.root.deref node with
  | none => types
  | some n => n.classifyByType node types

/-- The value a 32-bit `int` holds after an arithmetic result `x`: `x` modulo
`2^32` in the range from `-2^31` to `2^31 - 1`. -/
def wrapInt (x : Int) : Int := (x + 2147483648) % 4294967296 - 2147483648

mutual
/-- Embedding of `calculateSize` (lines 286-305) for a non-null `node`: the
value returned and the node with the sizes written into it. -/
def FileNode.calculateSize : FileNode → Int × FileNode
  | FileNode.mk name type size left =>
    if type ≠ FileType.DIRECTORY then (size, FileNode.mk name type size left)
    else
      (( FileNode.calculateSizeLoop left 0).1,
        FileNode.mk name type ( FileNode.calculateSizeLoop left 0).1
          ( FileNode.calculateSizeLoop left 0).2)
/-- The loop of `calculateSize` (lines 297-300): `totalSize` so far, the chain
starting at `child`; `totalSize += calculateSize(child)` is an `int`
addition. -/
def FileNode.calculateSizeLoop : List FileNode → Int → Int × List FileNode
  | [], totalSize => (totalSize, [])
  | child :: right, totalSize =>
    (( FileNode.calculateSizeLoop right
        (wrapInt (totalSize + (FileNode.calculateSize child).1))).1,
      (FileNode.calculateSize child).2 ::
        ( FileNode.calculateSizeLoop right
          (wrapInt (totalSize + (FileNode.calculateSize child).1))).2)
end

/-- Embedding of `calculateSize` (lines 286-305), null pointer included. -/
def FileSystem.calculateSize (fs : FileSystem) (node : Ptr) : Int × FileSystem :=
  match fs.root.deref node with
  | none => (0, fs)
  | some n =>
    ((n.calculateSize).1,
      { fs with root := fs.root.update node (fun m => (m.calculateSize).2) })

/-- What a node stores about itself: its `name`, `type` and `size`, and the
number of its children. -/
def FileNode.fields (n : FileNode) : String × FileType × Int × Nat :=
  (n.name, n.type, n.size, n.left.length)

/-- Visiting order of pre-order on addresses: `p` comes before `q` when `p`
is a proper ancestor of `q` (a node before its children) or when, where the
two first differ, `p` goes to a child further left than `q` does. -/
def Ptr.before : Ptr → Ptr → Bool
  | [], [] => false
  | [], _ :: _ => true
  | _ :: _, [] => false
  | i :: p, j :: q => decide (i < j) || (decide (i = j) && Ptr.before p q)

mutual
/-- The nodes of a subtree with their addresses, listed node first and then
the subtrees of the children from left to right. -/
def FileNode.nodes : FileNode → Ptr → List (Ptr × FileNode)
  | FileNode.mk name type size left, p =>
    (p, FileNode.mk name type size left) :: FileNode.nodesLoop left p 0
/-- The nodes of the subtrees of a chain of children of `p`, the first of
them being child number `i`. -/
def FileNode.nodesLoop : List FileNode → Ptr → Nat → List (Ptr × FileNode)
  | [], _, _ => []
  | child :: right, p, i =>
    FileNode.nodes child (p ++ [i]) ++ FileNode.nodesLoop right p (i + 1)
end

/-- The address, after child number `k` of the directory at `cur` has been
unlinked, of the node that had the address `q` before: `none` for the nodes
of the unlinked subtree, one index less for what follows the unlinked child
in the chain of `cur`, the same address everywhere else. -/
def Ptr.afterRemove : Ptr → Nat → Ptr → Option Ptr
  | _, _, [] => some []
  | [], k, j :: r =>
    if j < k then some (j :: r) else if j = k then none else some ((j - 1) :: r)
  | i :: cur, k, j :: r =>
    if i = j then (Ptr.afterRemove cur k r).map (fun r' => j :: r') else some (j :: r)

/-- The state of the scenario `mkdir docs`, `cd docs`, `touch a.txt 10`,
`touch b.jpg 20`, `cd ..`, run on a freshly constructed file system as `main`
dispatches the commands (lines 472-488). -/
def FileSystem.scenario : FileSystem :=
  (((((FileSystem.init.create "docs" true 0).2.enterDirectory "docs").2.create
    "a.txt" false 10).2.create "b.jpg" false 20).2.goUp).2

/-- The address and the name of a listed node. -/
def FileNode.addrName (x : Ptr × FileNode) : Ptr × String := (x.1, x.2.name)

/-- The address after the unlinking (see `Ptr.afterRemove`) and the name of a
listed node, `none` for a node of the unlinked subtree. -/
def FileNode.addrNameAfterRemove (cur : Ptr) (k : Nat) (x : Ptr × FileNode) :
    Option (Ptr × String) :=
  (Ptr.afterRemove cur k x.1).map (fun q => (q, x.2.name))

/-- Visiting order of post-order on addresses: `p` comes before `q` when `p`
is a proper descendant of `q` (all descendants before the node) or when,
where the two first differ, `p` goes to a child further left than `q` does. -/
def Ptr.beforePost : Ptr → Ptr → Bool
  | [], _ => false
  | _ :: _, [] => true
  | i :: p, j :: q => decide (i < j) || (decide (i = j) && Ptr.beforePost p q)

mutual
/-- The nodes of a subtree with their addresses, the subtrees of the children
from left to right first and the node itself last. -/
def FileNode.nodesPost : FileNode → Ptr → List (Ptr × FileNode)
  | FileNode.mk name type size left, p =>
    FileNode.nodesPostLoop left p 0 ++ [(p, FileNode.mk name type size left)]
/-- The nodes of the subtrees of a chain of children of `p`, post-order in
each, the first of them being child number `i`. -/
def FileNode.nodesPostLoop : List FileNode → Ptr → Nat → List (Ptr × FileNode)
  | [], _, _ => []
  | child :: right, p, i =>
    FileNode.nodesPost child (p ++ [i]) ++ FileNode.nodesPostLoop right p (i + 1)
end

/-- The states the program can be in: the freshly constructed file system
and whatever a public mutating method makes of a state (for `calculateSize`
with any pointer argument). -/
inductive FileSystem.Reachable : FileSystem → Prop
  | init : FileSystem.Reachable FileSystem.init
  | create (fs : FileSystem) (name : String) (isDirectory : Bool) (size : Int) :
      FileSystem.Reachable fs → FileSystem.Reachable (fs.create name isDirectory size).2
  | remove (fs : FileSystem) (name : String) :
      FileSystem.Reachable fs → FileSystem.Reachable (fs.remove name).2
  | rename (fs : FileSystem) (oldName newName : String) :
      FileSystem.Reachable fs → FileSystem.Reachable (fs.rename oldName newName).2
  | enterDirectory (fs : FileSystem) (name : String) :
      FileSystem.Reachable fs → FileSystem.Reachable (fs.enterDirectory name).2
  | goUp (fs : FileSystem) :
      FileSystem.Reachable fs → FileSystem.Reachable (fs.goUp).2
  | calculateSize (fs : FileSystem) (node : Ptr) :
      FileSystem.Reachable fs → FileSystem.Reachable (fs.calculateSize node).2

/-- A well-formed subtree: a node that is not a Directory has no children and
carries the type of its name; the names in one chain are pairwise distinct;
and the children are well formed. -/
inductive FileNode.Good : FileNode → Prop
  | mk (name : String) (type : FileType) (size : Int) (left : List FileNode) :
      (type ≠ FileType.DIRECTORY → left = [] ∧ type = getFileTypeByExtension name) →
      (left.map FileNode.name).Nodup →
      (∀ c ∈ left, FileNode.Good c) →
      FileNode.Good (FileNode.mk name type size left)

/-- A well-formed state: a well-formed tree and a cursor on a Directory of
the tree. -/
def FileSystem.Inv (fs : FileSystem) : Prop :=
  fs.root.Good ∧ ∃ cur, fs.root.deref fs.current = some cur ∧ cur.type = FileType.DIRECTORY

/-- The sum of the stored sizes of the nodes of a subtree that are not
Directories. -/
def FileNode.fileSizes (n : FileNode) : Int :=
  (((n.nodes []).filter (fun x => decide (x.2.type ≠ FileType.DIRECTORY))).map
    (fun x => x.2.size)).sum

/-- Everything a node stores about itself except the size of a Directory:
its `name`, its `type`, the number of its children, and its `size` when it is
not a Directory. -/
def FileNode.fieldsButDirSize (n : FileNode) : String × FileType × Nat × Option Int :=
  (n.name, n.type, n.left.length, if n.type = FileType.DIRECTORY then none else some n.size)

/-- The loop of `getCurrentPath` (lines 240-243), the names pushed onto
`path`.  The pointer `temp` is passed from the node up to the root, so that
`temp->parent` is its tail; after the root `temp` is null and the loop ends,
as it does for a pointer that designates no node. -/
def FileSystem.pushNamesUp (root : FileNode) : List Nat → List String
  | [] => [root.name]
  | i :: up =>
    match root.deref (i :: up).reverse with
    | some n => n.name :: FileSystem.pushNamesUp root up
    | none => []

/-- The loops that build the path string (lines 247-249 and 350-352):
`k = i + 1` iterations are left, each appends `"/" + path[i]` and steps `i`
down. -/
def FileSystem.appendDown (path : List String) : Nat → String → String
  | 0, result => result
  | i + 1, result => FileSystem.appendDown path i (result ++ ("/" ++ path.getD i ""))

/-- Embedding of `getCurrentPath` (lines 235-251). -/
def FileSystem.getCurrentPath (fs : FileSystem) : String :=
  if FileSystem.appendDown (FileSystem.pushNamesUp fs.root fs.current.reverse)
      (FileSystem.pushNamesUp fs.root fs.current.reverse).length "" = "" then "/"
  else FileSystem.appendDown (FileSystem.pushNamesUp fs.root fs.current.reverse)
      (FileSystem.pushNamesUp fs.root fs.current.reverse).length ""

/-- The loop of `searchFile` (lines 344-347), the names pushed onto `path`:
as `pushNamesUp`, but the loop also ends when `temp` is the root. -/
def FileSystem.pushNamesBelowRoot (root : FileNode) : List Nat → List String
  | [] => []
  | i :: up =>
    match root.deref (i :: up).reverse with
    | some n => n.name :: FileSystem.pushNamesBelowRoot root up
    | none => []

/-- The path `searchFile` shows for a result `node` (lines 341-352): the loop
starts at `i = path.size() - 2`, so `path.size() - 1` iterations (none when
`path` is empty). -/
def FileSystem.searchFilePath (fs : FileSystem) (node : Ptr) : String :=
  FileSystem.appendDown (FileSystem.pushNamesBelowRoot fs.root node.reverse)
    ((FileSystem.pushNamesBelowRoot fs.root node.reverse).length - 1) "/root"

/-- Embedding of `searchFile` (lines 330-362): the paths it shows, one per
result of `searchByName`, in the order of the results. -/
def FileSystem.searchFile (fs : FileSystem) (keyword : String) : List String :=
  (fs.searchByName [] keyword []).map fs.searchFilePath

/-- The states the program can be in when every `create` is given a size
that is not negative and `calculateSize` is called only on nodes below which
the sizes of the nodes that are not Directories sum to less than `2^31`. -/
inductive FileSystem.ReachableNonneg : FileSystem → Prop
  | init : FileSystem.ReachableNonneg FileSystem.init
  | create (fs : FileSystem) (name : String) (isDirectory : Bool) (size : Int) :
      0 ≤ size → FileSystem.ReachableNonneg fs →
      FileSystem.ReachableNonneg (fs.create name isDirectory size).2
  | remove (fs : FileSystem) (name : String) :
      FileSystem.ReachableNonneg fs → FileSystem.ReachableNonneg (fs.remove name).2
  | rename (fs : FileSystem) (oldName newName : String) :
      FileSystem.ReachableNonneg fs →
      FileSystem.ReachableNonneg (fs.rename oldName newName).2
  | enterDirectory (fs : FileSystem) (name : String) :
      FileSystem.ReachableNonneg fs → FileSystem.ReachableNonneg (fs.enterDirectory name).2
  | goUp (fs : FileSystem) :
      FileSystem.ReachableNonneg fs → FileSystem.ReachableNonneg (fs.goUp).2
  | calculateSize (fs : FileSystem) (node : Ptr) :
      (∀ n, fs.root.deref node = some n → n.fileSizes < 2147483648) →
      FileSystem.ReachableNonneg fs → FileSystem.ReachableNonneg (fs.calculateSize node).2

/-- Every node of the subtree stores a size that is not negative. -/
def FileNode.SizesNonneg (n : FileNode) : Prop :=
  ∀ (p : Ptr) (m : FileNode), n.deref p = some m → 0 ≤ m.size

/-- The state after `touch big.txt 2147483647`, `touch one.txt 1` on a
freshly constructed file system, as `main` dispatches the commands (lines
477-481); 2147483647 is the largest `int`. -/
def FileSystem.overflowScenario : FileSystem :=
  ((FileSystem.init.create "big.txt" false 2147483647).2.create "one.txt" false 1).2

/-! ## Theorems -/

theorem strFind_eq_none {s : List Char} {c : Char} : strFind s c = none ↔ c ∉ s := by
  induction s with
  | nil => simp [strFind]
  | cons x xs ih =>
    by_cases h : x = c
    · simp [strFind, h]
    · have h2 : ¬ c = x := fun e => h e.symm
      simp [strFind, h, h2, ih]

theorem strFindLastOf_eq_none {s : List Char} {c : Char} :
    strFindLastOf s c = none ↔ c ∉ s := by
  induction s with
  | nil => simp [strFindLastOf]
  | cons x xs ih =>
    by_cases hm : c ∈ xs
    · have : strFindLastOf xs c ≠ none := fun e => (ih.1 e) hm
      cases hx : strFindLastOf xs c with
      | none => exact absurd hx this
      | some i => simp [strFindLastOf, hx, hm]
    · have hx : strFindLastOf xs c = none := ih.2 hm
      by_cases h : x = c
      · simp [strFindLastOf, hx, h]
      · have h2 : ¬ c = x := fun e => h e.symm
        simp [strFindLastOf, hx, h, h2, hm]

/-- The substring after the last occurrence of `c`. -/
theorem strSubstr_after_last (pre ext : List Char) (c : Char) (h : c ∉ ext) :
    strSubstr (pre ++ c :: ext)
      (match strFindLastOf (pre ++ c :: ext) c with
       | some i => i + 1
       | none => 0) = ext := by
  induction pre with
  | nil =>
    have : strFindLastOf ext c = none := strFindLastOf_eq_none.2 h
    simp [strFindLastOf, this, strSubstr]
  | cons x xs ih =>
    cases hx : strFindLastOf (xs ++ c :: ext) c with
    | none =>
      have := strFindLastOf_eq_none.1 hx
      simp at this
    | some i =>
      rw [hx] at ih
      have hcons : strFindLastOf (x :: (xs ++ c :: ext)) c = some (i + 1) := by
        simp [strFindLastOf, hx]
      rw [List.cons_append, hcons]
      simpa [strSubstr] using ih

/-- A list containing `c` splits around the last occurrence of `c`. -/
theorem exists_split_at_last (s : List Char) (c : Char) (h : c ∈ s) :
    ∃ pre ext, s = pre ++ c :: ext ∧ c ∉ ext := by
  induction s with
  | nil => simp at h
  | cons x xs ih =>
    by_cases hm : c ∈ xs
    · obtain ⟨pre, ext, h1, h2⟩ := ih hm
      exact ⟨x :: pre, ext, by rw [h1]; rfl, h2⟩
    · have hx : c = x := by
        rcases List.mem_cons.1 h with h | h
        · exact h
        · exact absurd h hm
      exact ⟨[], xs, by rw [hx]; rfl, hm⟩

/-- With a `'.'` in the name, the classifier looks only at the lower-cased
text after the last `'.'`. -/
theorem getFileTypeByExtension_of_split (name : String) (pre ext : List Char)
    (hsplit : name.data = pre ++ '.' :: ext) (hext : '.' ∉ ext) :
    getFileTypeByExtension name =
      (let e := String.mk (ext.map Char.toLower)
       if e = "txt" ∨ e = "doc" ∨ e = "pdf" then FileType.TEXT
       else if e = "jpg" ∨ e = "png" ∨ e = "gif" then FileType.IMAGE
       else if e = "mp4" ∨ e = "avi" ∨ e = "mov" then FileType.VIDEO
       else if e = "mp3" ∨ e = "wav" ∨ e = "flac" then FileType.AUDIO
       else FileType.OTHER) := by
  have hfind : strFind name.data '.' ≠ none := by
    intro h
    have := strFind_eq_none.1 h
    rw [hsplit] at this
    simp at this
  have hsub := strSubstr_after_last pre ext '.' hext
  rw [← hsplit] at hsub
  unfold getFileTypeByExtension
  rw [if_neg hfind]
  simp only [hsub, strToLower]

/-- C4: `getFileTypeByExtension` is a total function; it returns Directory
for a name without `'.'`; a name with a `'.'` splits uniquely around its last
`'.'`, and with `e` the lower-cased text after it the result is Text for
txt/doc/pdf, Image for jpg/png/gif, Video for mp4/avi/mov, Audio for
mp3/wav/flac and Other for everything else, the empty extension included;
`"A.TXT"` is Text and `"a.txt.jpg"` is Image. -/
theorem getFileTypeByExtension_spec (name : String) :
    ('.' ∉ name.data → getFileTypeByExtension name = FileType.DIRECTORY) ∧
    ('.' ∈ name.data → ∃ pre ext, name.data = pre ++ '.' :: ext ∧ '.' ∉ ext) ∧
    (∀ pre ext, name.data = pre ++ '.' :: ext → '.' ∉ ext →
      ∀ e, e = String.mk (ext.map Char.toLower) →
        (e = "txt" ∨ e = "doc" ∨ e = "pdf" →
          getFileTypeByExtension name = FileType.TEXT) ∧
        (e = "jpg" ∨ e = "png" ∨ e = "gif" →
          getFileTypeByExtension name = FileType.IMAGE) ∧
        (e = "mp4" ∨ e = "avi" ∨ e = "mov" →
          getFileTypeByExtension name = FileType.VIDEO) ∧
        (e = "mp3" ∨ e = "wav" ∨ e = "flac" →
          getFileTypeByExtension name = FileType.AUDIO) ∧
        (e ∉ ["txt", "doc", "pdf", "jpg", "png", "gif", "mp4", "avi", "mov",
              "mp3", "wav", "flac"] →
          getFileTypeByExtension name = FileType.OTHER) ∧
        (e = "" → getFileTypeByExtension name = FileType.OTHER)) ∧
    getFileTypeByExtension "A.TXT" = FileType.TEXT ∧
    getFileTypeByExtension "a.txt.jpg" = FileType.IMAGE := by
  refine ⟨?_, ?_, ?_, by decide, by decide⟩
  · intro h
    unfold getFileTypeByExtension
    rw [if_pos (strFind_eq_none.2 h)]
  · intro h
    exact exists_split_at_last name.data '.' h
  · intro pre ext hsplit hext e he
    have key := getFileTypeByExtension_of_split name pre ext hsplit hext
    simp only [← he] at key
    refine ⟨?_, ?_, ?_, ?_, ?_, ?_⟩
    · intro h
      rw [key]
      rcases h with h | h | h <;> subst h <;> decide
    · intro h
      rw [key]
      rcases h with h | h | h <;> rw [h] <;> decide
    · intro h
      rw [key]
      rcases h with h | h | h <;> rw [h] <;> decide
    · intro h
      rw [key]
      rcases h with h | h | h <;> rw [h] <;> decide
    · intro h
      rw [key]
      simp only [List.mem_cons, List.mem_singleton, List.not_mem_nil, or_false, not_or] at h
      obtain ⟨h1, h2, h3, h4, h5, h6, h7, h8, h9, h10, h11, h12⟩ := h
      simp [h1, h2, h3, h4, h5, h6, h7, h8, h9, h10, h11, h12]
    · intro h
      rw [key, h]
      decide

/-! ### Pointers: reading and writing -/

@[simp] theorem FileNode.name_mk (n : String) (t : FileType) (s : Int) (l : List FileNode) :
    (FileNode.mk n t s l).name = n := rfl

@[simp] theorem FileNode.type_mk (n : String) (t : FileType) (s : Int) (l : List FileNode) :
    (FileNode.mk n t s l).type = t := rfl

@[simp] theorem FileNode.size_mk (n : String) (t : FileType) (s : Int) (l : List FileNode) :
    (FileNode.mk n t s l).size = s := rfl

@[simp] theorem FileNode.left_mk (n : String) (t : FileType) (s : Int) (l : List FileNode) :
    (FileNode.mk n t s l).left = l := rfl

theorem FileNode.mk_eta (n : FileNode) : FileNode.mk n.name n.type n.size n.left = n := by
  cases n; rfl

theorem FileNode.deref_nil (n : FileNode) : n.deref [] = some n := by
  cases n; rfl

theorem FileNode.deref_cons (n : FileNode) (i : Nat) (p : Ptr) :
    n.deref (i :: p) = (n.left[i]?).bind (fun c => c.deref p) := by
  cases n with
  | mk nm ty sz l =>
    simp only [FileNode.deref, FileNode.left]
    cases l[i]? <;> rfl

theorem FileNode.update_nil (n : FileNode) (f : FileNode → FileNode) : n.update [] f = f n := by
  cases n; rfl

theorem FileNode.update_cons (n : FileNode) (i : Nat) (p : Ptr) (f : FileNode → FileNode) :
    n.update (i :: p) f =
      FileNode.mk n.name n.type n.size (n.left.modify (fun c => c.update p f) i) := by
  cases n; rfl

theorem FileNode.deref_append (p q : Ptr) (n : FileNode) :
    n.deref (p ++ q) = (n.deref p).bind (fun c => c.deref q) := by
  induction p generalizing n with
  | nil => simp [FileNode.deref_nil]
  | cons i p ih =>
    rw [List.cons_append, FileNode.deref_cons, FileNode.deref_cons]
    cases n.left[i]? with
    | none => rfl
    | some c => simpa using ih c

/-- Reading back what was written. -/
theorem FileNode.deref_update_self (p : Ptr) (root d : FileNode) (f : FileNode → FileNode)
    (h : root.deref p = some d) : (root.update p f).deref p = some (f d) := by
  induction p generalizing root with
  | nil =>
    rw [FileNode.deref_nil] at h
    rw [FileNode.update_nil, FileNode.deref_nil]
    cases h; rfl
  | cons i p ih =>
    rw [FileNode.deref_cons] at h
    rw [FileNode.update_cons, FileNode.deref_cons]
    simp only [FileNode.left_mk, List.getElem?_modify_eq]
    cases hc : root.left[i]? with
    | none => rw [hc] at h; simp at h
    | some c =>
      rw [hc] at h
      simpa using ih c h

/-- What a write below `p ++ q` does to the node at `p`. -/
theorem FileNode.deref_update_append (p q : Ptr) (root d : FileNode) (f : FileNode → FileNode)
    (h : root.deref p = some d) :
    (root.update (p ++ q) f).deref p = some (d.update q f) := by
  induction p generalizing root with
  | nil =>
    rw [FileNode.deref_nil] at h
    rw [List.nil_append, FileNode.deref_nil]
    cases h; rfl
  | cons i p ih =>
    rw [FileNode.deref_cons] at h
    rw [List.cons_append, FileNode.update_cons, FileNode.deref_cons]
    simp only [FileNode.left_mk, List.getElem?_modify_eq]
    cases hc : root.left[i]? with
    | none => rw [hc] at h; simp at h
    | some c =>
      rw [hc] at h
      simpa using ih c h

/-- A write through a pointer that designates no node changes nothing. -/
theorem FileNode.update_of_deref_none (p : Ptr) (root : FileNode) (f : FileNode → FileNode)
    (h : root.deref p = none) : root.update p f = root := by
  induction p generalizing root with
  | nil => rw [FileNode.deref_nil] at h; cases h
  | cons i p ih =>
    rw [FileNode.deref_cons] at h
    rw [FileNode.update_cons]
    have : root.left.modify (fun c => c.update p f) i = root.left := by
      apply List.ext_getElem?
      intro j
      rw [List.getElem?_modify]
      by_cases hij : i = j
      · subst hij
        cases hc : root.left[i]? with
        | none => simp
        | some c =>
          rw [hc] at h
          simp at h
          simp [ih c h]
      · simp [hij]
    rw [this, FileNode.mk_eta]

/-- A write through `p` leaves the fields and the number of children of every
node that is not at or below `p` as they were. -/
theorem FileNode.deref_update_frame (p : Ptr) (root : FileNode) (f : FileNode → FileNode)
    (q : Ptr) (h : ¬ p <+: q) :
    ((root.update p f).deref q).map FileNode.fields = (root.deref q).map FileNode.fields := by
  induction p generalizing root q with
  | nil => exact absurd (List.nil_prefix) h
  | cons i p ih =>
    rw [FileNode.update_cons]
    cases q with
    | nil => simp [FileNode.deref_nil, FileNode.fields]
    | cons j q =>
      rw [FileNode.deref_cons, FileNode.deref_cons]
      simp only [FileNode.left_mk]
      rw [List.getElem?_modify]
      by_cases hij : i = j
      · subst hij
        have hq : ¬ p <+: q := fun hp => h (by simpa using hp)
        cases hc : root.left[i]? with
        | none => simp
        | some c => simpa using ih c q hq
      · simp [hij]

/-! ### Lookup in the current directory -/

theorem FileSystem.findLoop_eq_none (cs : List FileNode) (name : String) (i : Nat) :
    FileSystem.findLoop cs name i = none ↔ ∀ c ∈ cs, c.name ≠ name := by
  induction cs generalizing i with
  | nil => simp [FileSystem.findLoop]
  | cons c cs ih =>
    by_cases h : c.name = name
    · simp [FileSystem.findLoop, h]
    · simp [FileSystem.findLoop, h, ih]

/-- The loop returns the first node of the chain that carries the name. -/
theorem FileSystem.findLoop_eq_some (cs : List FileNode) (name : String) (i k : Nat)
    (c : FileNode) (h : FileSystem.findLoop cs name i = some (k, c)) :
    ∃ j, k = i + j ∧ cs[j]? = some c ∧ c.name = name ∧
      ∀ j', j' < j → ∀ c', cs[j']? = some c' → c'.name ≠ name := by
  induction cs generalizing i with
  | nil => simp [FileSystem.findLoop] at h
  | cons x cs ih =>
    by_cases hx : x.name = name
    · simp only [FileSystem.findLoop, hx, if_true, Option.some.injEq, Prod.mk.injEq] at h
      obtain ⟨h1, h2⟩ := h
      subst h1 h2
      exact ⟨0, rfl, by simp, hx, fun j' hj' => absurd hj' (Nat.not_lt_zero _)⟩
    · simp only [FileSystem.findLoop, hx, if_false] at h
      obtain ⟨j, hk, hj, hn, hfirst⟩ := ih (i + 1) h
      refine ⟨j + 1, by omega, by simpa using hj, hn, ?_⟩
      intro j' hj' c' hc'
      cases j' with
      | zero =>
        simp at hc'
        subst hc'
        exact hx
      | succ j' => exact hfirst j' (by omega) c' (by simpa using hc')

theorem FileSystem.findInCurrentDir_eq (fs : FileSystem) (name : String) (cur : FileNode)
    (hcur : fs.root.deref fs.current = some cur) :
    fs.findInCurrentDir name = FileSystem.findLoop cur.left name 0 := by
  simp [FileSystem.findInCurrentDir, hcur]

theorem FileSystem.linkAfterLast_eq (temp : FileNode) (right : List FileNode)
    (newNode : FileNode) :
    FileSystem.linkAfterLast temp right newNode = temp :: right ++ [newNode] := by
  induction right generalizing temp with
  | nil => rfl
  | cons next right ih => simp [FileSystem.linkAfterLast, ih]

/-- The state after a successful `create`. -/
theorem FileSystem.create_of_absent (fs : FileSystem) (name : String) (isDirectory : Bool)
    (size : Int) (cur : FileNode) (hcur : fs.root.deref fs.current = some cur)
    (habs : ∀ c ∈ cur.left, c.name ≠ name) :
    fs.create name isDirectory size =
      (true, { fs with root := fs.root.update fs.current (fun cur =>
        FileNode.mk cur.name cur.type cur.size
          (cur.left ++ [FileNode.mk name
            (if isDirectory then FileType.DIRECTORY else getFileTypeByExtension name)
            size []])) }) := by
  have hfind : fs.findInCurrentDir name = none := by
    rw [FileSystem.findInCurrentDir_eq fs name cur hcur]
    exact (FileSystem.findLoop_eq_none _ _ _).2 habs
  unfold FileSystem.create
  rw [hfind]
  simp only [Option.isSome_none, Bool.false_eq_true, if_false]
  congr 2
  congr 1
  funext d
  cases hl : d.left with
  | nil => simp
  | cons temp right => simp [FileSystem.linkAfterLast_eq]

theorem FileSystem.create_of_present (fs : FileSystem) (name : String) (isDirectory : Bool)
    (size : Int) (cur : FileNode) (hcur : fs.root.deref fs.current = some cur)
    (hpres : ∃ c ∈ cur.left, c.name = name) :
    fs.create name isDirectory size = (false, fs) := by
  have hfind : fs.findInCurrentDir name ≠ none := by
    rw [FileSystem.findInCurrentDir_eq fs name cur hcur]
    intro h
    obtain ⟨c, hc, hn⟩ := hpres
    exact (FileSystem.findLoop_eq_none _ _ _).1 h c hc hn
  unfold FileSystem.create
  cases hf : fs.findInCurrentDir name with
  | none => exact absurd hf hfind
  | some x => simp

/-- C1: in a state whose cursor designates the node `cur`, `create` returns
false exactly when a child of `cur` already has the name, and then the state
is unchanged; otherwise it returns true, the cursor is unchanged, the current
directory keeps its fields and its child list is the old one followed by one
new childless node with the given name and size and with type Directory if
`isDirectory` and `getFileTypeByExtension name` otherwise, that node is the
child of the current directory with the next free index, and every node that
is not at or below the current directory keeps its fields and its number of
children.  A second `create` with the same name fails and leaves the state
as the first left it. -/
theorem FileSystem.create_spec (fs : FileSystem) (name : String) (isDirectory : Bool)
    (size : Int) (cur : FileNode) (hcur : fs.root.deref fs.current = some cur) :
    ((fs.create name isDirectory size).1 = false ↔ ∃ c ∈ cur.left, c.name = name) ∧
    ((fs.create name isDirectory size).1 = false →
      (fs.create name isDirectory size).2 = fs) ∧
    ((fs.create name isDirectory size).1 = true →
      (fs.create name isDirectory size).2.current = fs.current ∧
      (fs.create name isDirectory size).2.root.deref fs.current =
        some (FileNode.mk cur.name cur.type cur.size
          (cur.left ++ [FileNode.mk name
            (if isDirectory then FileType.DIRECTORY else getFileTypeByExtension name)
            size []])) ∧
      (fs.create name isDirectory size).2.root.deref (fs.current ++ [cur.left.length]) =
        some (FileNode.mk name
          (if isDirectory then FileType.DIRECTORY else getFileTypeByExtension name)
          size []) ∧
      ∀ q : Ptr, ¬ fs.current <+: q →
        ((fs.create name isDirectory size).2.root.deref q).map FileNode.fields =
          (fs.root.deref q).map FileNode.fields) ∧
    (∀ (isDirectory2 : Bool) (size2 : Int),
      ((fs.create name isDirectory size).2.create name isDirectory2 size2).1 = false ∧
      ((fs.create name isDirectory size).2.create name isDirectory2 size2).2 =
        (fs.create name isDirectory size).2) := by
  by_cases hpres : ∃ c ∈ cur.left, c.name = name
  · have h := FileSystem.create_of_present fs name isDirectory size cur hcur hpres
    rw [h]
    refine ⟨by simp [hpres], by simp, by simp, ?_⟩
    intro d2 s2
    rw [FileSystem.create_of_present fs name d2 s2 cur hcur hpres]
    exact ⟨rfl, rfl⟩
  · have habs : ∀ c ∈ cur.left, c.name ≠ name := by
      intro c hc hn
      exact hpres ⟨c, hc, hn⟩
    have h := FileSystem.create_of_absent fs name isDirectory size cur hcur habs
    rw [h]
    have hnew := FileNode.deref_update_self fs.current fs.root cur (fun cur =>
        FileNode.mk cur.name cur.type cur.size
          (cur.left ++ [FileNode.mk name
            (if isDirectory then FileType.DIRECTORY else getFileTypeByExtension name)
            size []])) hcur
    refine ⟨by simp [hpres], by simp, ?_, ?_⟩
    · intro _
      refine ⟨rfl, hnew, ?_, ?_⟩
      · simp only
        rw [FileNode.deref_append, hnew]
        simp [FileNode.deref_cons, FileNode.deref_nil]
      · intro q hq
        exact FileNode.deref_update_frame _ _ _ q hq
    · intro d2 s2
      have hp2 : ∃ c ∈ (FileNode.mk cur.name cur.type cur.size
          (cur.left ++ [FileNode.mk name
            (if isDirectory then FileType.DIRECTORY else getFileTypeByExtension name)
            size []])).left, c.name = name :=
        ⟨FileNode.mk name
            (if isDirectory then FileType.DIRECTORY else getFileTypeByExtension name)
            size [], by simp, rfl⟩
      have := FileSystem.create_of_present ⟨_, fs.current⟩ name d2 s2 _ hnew hp2
      simp only at this ⊢
      rw [this]
      exact ⟨rfl, rfl⟩

/-- Witness for C1 at the freshly constructed file system and the name `x`. -/
theorem FileSystem.create_spec_witness :
    (FileSystem.init.create "x" false 0).2.root.deref [] =
      some (FileNode.mk "root" FileType.DIRECTORY 0
        [FileNode.mk "x" FileType.DIRECTORY 0 []]) ∧
    ((FileSystem.init.create "x" false 0).2.create "x" false 0).1 = false :=
  ⟨((FileSystem.create_spec FileSystem.init "x" false 0
      (FileNode.mk "root" FileType.DIRECTORY 0 []) rfl).2.2.1 rfl).2.1,
   ((FileSystem.create_spec FileSystem.init "x" false 0
      (FileNode.mk "root" FileType.DIRECTORY 0 []) rfl).2.2.2 false 0).1⟩

/-- Witness for C4 at the name `b.c.PNG`, which splits into `b.c` and `PNG`. -/
theorem getFileTypeByExtension_spec_witness :
    getFileTypeByExtension "b.c.PNG" = FileType.IMAGE :=
  ((getFileTypeByExtension_spec "b.c.PNG").2.2.1 "b.c".data "PNG".data
    (by decide) (by decide) "png" (by decide)).2.1 (Or.inr (Or.inl rfl))

/-! ### `rename` -/

theorem List.modify_eq_set_of_getElem? {α : Type} (f : α → α) (l : List α) (k : Nat) (a : α)
    (h : l[k]? = some a) : l.modify f k = l.set k (f a) := by
  rw [List.modify_eq_set_get?]
  simp [List.get?_eq_getElem?, h]

/-- The type `rename` stores in its target. -/
theorem FileSystem.rename_type_eq (t : FileNode) (newName : String) :
    (if !t.isDirectory then getFileTypeByExtension newName else t.type) =
      (if t.type = FileType.DIRECTORY then FileType.DIRECTORY
       else getFileTypeByExtension newName) := by
  by_cases h : t.type = FileType.DIRECTORY <;> simp [FileNode.isDirectory, h]

/-- The state after a successful `rename`: the target is the first child
carrying the old name. -/
theorem FileSystem.rename_of_found (fs : FileSystem) (oldName newName : String)
    (cur : FileNode) (hcur : fs.root.deref fs.current = some cur)
    (hold : ∃ c ∈ cur.left, c.name = oldName) (hnew : ∀ c ∈ cur.left, c.name ≠ newName) :
    ∃ k t, cur.left[k]? = some t ∧ t.name = oldName ∧
      (∀ j, j < k → ∀ c, cur.left[j]? = some c → c.name ≠ oldName) ∧
      fs.rename oldName newName =
        (true, { fs with root := fs.root.update (fs.current ++ [k]) (fun t =>
            FileNode.mk newName
              (if !t.isDirectory then getFileTypeByExtension newName else t.type)
              t.size t.left) }) := by
  have hfnew : fs.findInCurrentDir newName = none := by
    rw [FileSystem.findInCurrentDir_eq fs newName cur hcur]
    exact (FileSystem.findLoop_eq_none _ _ _).2 hnew
  cases hf : FileSystem.findLoop cur.left oldName 0 with
  | none =>
    obtain ⟨c, hc, hn⟩ := hold
    exact absurd hn ((FileSystem.findLoop_eq_none _ _ _).1 hf c hc)
  | some r =>
    obtain ⟨k, t⟩ := r
    obtain ⟨j, hk, hj, hn, hfirst⟩ := FileSystem.findLoop_eq_some _ _ _ _ _ hf
    have hkj : k = j := by omega
    subst hkj
    refine ⟨k, t, hj, hn, hfirst, ?_⟩
    unfold FileSystem.rename
    rw [hfnew, FileSystem.findInCurrentDir_eq fs oldName cur hcur, hf]
    simp

/-- The cases in which `rename` fails. -/
theorem FileSystem.rename_of_fail (fs : FileSystem) (oldName newName : String)
    (cur : FileNode) (hcur : fs.root.deref fs.current = some cur)
    (h : (∀ c ∈ cur.left, c.name ≠ oldName) ∨ (∃ c ∈ cur.left, c.name = newName)) :
    fs.rename oldName newName = (false, fs) := by
  unfold FileSystem.rename
  rw [FileSystem.findInCurrentDir_eq fs oldName cur hcur,
    FileSystem.findInCurrentDir_eq fs newName cur hcur]
  cases hf : FileSystem.findLoop cur.left oldName 0 with
  | none => rfl
  | some r =>
    rcases h with h | h
    · exact absurd ((FileSystem.findLoop_eq_none cur.left oldName 0).2 h) (by simp [hf])
    · cases hg : FileSystem.findLoop cur.left newName 0 with
      | none =>
        obtain ⟨c, hc, hn⟩ := h
        exact absurd hn ((FileSystem.findLoop_eq_none _ _ _).1 hg c hc)
      | some r2 => simp

/-- C3: in a state whose cursor designates the node `cur`, `rename` returns
false and leaves the state unchanged when no child of `cur` is named
`oldName` or when some child is already named `newName`, in particular when
`oldName = newName`; otherwise it returns true, the cursor is unchanged, and
the current directory's chain changes only in the entry of the target (the
first child named `oldName`), which gets the name `newName`, the type
Directory if it was a Directory and `getFileTypeByExtension newName` if not,
and keeps its size and its children; every node that is not at or below the
current directory keeps its fields and its number of children. -/
theorem FileSystem.rename_spec (fs : FileSystem) (oldName newName : String)
    (cur : FileNode) (hcur : fs.root.deref fs.current = some cur) :
    (((∀ c ∈ cur.left, c.name ≠ oldName) ∨ (∃ c ∈ cur.left, c.name = newName)) →
      fs.rename oldName newName = (false, fs)) ∧
    (oldName = newName → fs.rename oldName newName = (false, fs)) ∧
    (¬ ((∀ c ∈ cur.left, c.name ≠ oldName) ∨ (∃ c ∈ cur.left, c.name = newName)) →
      ∃ k t, cur.left[k]? = some t ∧ t.name = oldName ∧
        (∀ j, j < k → ∀ c, cur.left[j]? = some c → c.name ≠ oldName) ∧
        (fs.rename oldName newName).1 = true ∧
        (fs.rename oldName newName).2.current = fs.current ∧
        (fs.rename oldName newName).2.root.deref fs.current =
          some (FileNode.mk cur.name cur.type cur.size
            (cur.left.set k (FileNode.mk newName
              (if t.type = FileType.DIRECTORY then FileType.DIRECTORY
               else getFileTypeByExtension newName)
              t.size t.left))) ∧
        ∀ q : Ptr, ¬ fs.current <+: q →
          ((fs.rename oldName newName).2.root.deref q).map FileNode.fields =
            (fs.root.deref q).map FileNode.fields) := by
  have hfail := FileSystem.rename_of_fail fs oldName newName cur hcur
  refine ⟨hfail, ?_, ?_⟩
  · intro heq
    subst heq
    by_cases h : ∃ c ∈ cur.left, c.name = oldName
    · exact hfail (Or.inr h)
    · exact hfail (Or.inl (fun c hc hn => h ⟨c, hc, hn⟩))
  · intro h
    have hold : ∃ c ∈ cur.left, c.name = oldName := by
      by_contra hno
      exact h (Or.inl (fun c hc hn => hno ⟨c, hc, hn⟩))
    have hnew : ∀ c ∈ cur.left, c.name ≠ newName := fun c hc hn => h (Or.inr ⟨c, hc, hn⟩)
    obtain ⟨k, t, hk, hn, hfirst, heq⟩ :=
      FileSystem.rename_of_found fs oldName newName cur hcur hold hnew
    refine ⟨k, t, hk, hn, hfirst, ?_⟩
    rw [heq]
    refine ⟨rfl, rfl, ?_, ?_⟩
    · simp only
      rw [FileNode.deref_update_append fs.current [k] fs.root cur _ hcur,
        FileNode.update_cons]
      simp only [FileNode.update_nil]
      rw [List.modify_eq_set_of_getElem? _ _ _ _ hk, FileSystem.rename_type_eq]
    · intro q hq
      apply FileNode.deref_update_frame
      intro hp
      exact hq (List.IsPrefix.trans (List.prefix_append _ _) hp)

/-- Witness for C3: renaming `a.txt` to `b.jpg` in a directory that holds
only `a.txt`. -/
theorem FileSystem.rename_spec_witness :
    ∃ k t, [FileNode.mk "a.txt" FileType.TEXT 1 []][k]? = some t ∧
      ((FileSystem.mk (FileNode.mk "root" FileType.DIRECTORY 0
          [FileNode.mk "a.txt" FileType.TEXT 1 []]) []).rename "a.txt" "b.jpg").2.root.deref [] =
        some (FileNode.mk "root" FileType.DIRECTORY 0
          ([FileNode.mk "a.txt" FileType.TEXT 1 []].set k (FileNode.mk "b.jpg"
            (if t.type = FileType.DIRECTORY then FileType.DIRECTORY
             else getFileTypeByExtension "b.jpg") t.size t.left))) := by
  obtain ⟨k, t, h1, _, _, _, _, h2, _⟩ :=
    (FileSystem.rename_spec (FileSystem.mk (FileNode.mk "root" FileType.DIRECTORY 0
      [FileNode.mk "a.txt" FileType.TEXT 1 []]) []) "a.txt" "b.jpg"
      (FileNode.mk "root" FileType.DIRECTORY 0 [FileNode.mk "a.txt" FileType.TEXT 1 []])
      rfl).2.2 (by decide)
  exact ⟨k, t, h1, h2⟩

/-! ### `searchByName` -/

theorem strFindStr_ne_none (s t : List Char) : strFindStr s t ≠ none ↔ t <:+: s := by
  induction s with
  | nil =>
    by_cases h : t = []
    · simp [strFindStr, h]
    · simp [strFindStr, h]
  | cons x xs ih =>
    by_cases h : t.isPrefixOf (x :: xs) = true
    · have hp : t <+: x :: xs := List.isPrefixOf_iff_prefix.1 h
      simp [strFindStr, h, hp.isInfix]
    · have hp : ¬ t <+: x :: xs := fun hp => h (List.isPrefixOf_iff_prefix.2 hp)
      have : (strFindStr (x :: xs) t ≠ none) ↔ strFindStr xs t ≠ none := by
        simp [strFindStr, h]
      rw [this, ih, List.infix_cons_iff]
      simp [hp]

mutual
theorem FileNode.searchByName_eq : ∀ (n : FileNode) (p : Ptr) (keyword : String)
    (results : List Ptr),
    n.searchByName p keyword results =
      results ++ ((n.nodes p).filter
        (fun x => decide (strFindStr x.2.name.data keyword.data ≠ none))).map Prod.fst
  | FileNode.mk name type size left, p, keyword, results => by
    rw [FileNode.searchByName, FileNode.nodes,
      FileNode.searchByNameLoop_eq left p 0 keyword]
    by_cases h : strFindStr name.data keyword.data ≠ none
    · simp [List.filter_cons, h]
    · simp [List.filter_cons, h]
theorem FileNode.searchByNameLoop_eq : ∀ (cs : List FileNode) (p : Ptr) (i : Nat)
    (keyword : String) (results : List Ptr),
    FileNode.searchByNameLoop cs p i keyword results =
      results ++ ((FileNode.nodesLoop cs p i).filter
        (fun x => decide (strFindStr x.2.name.data keyword.data ≠ none))).map Prod.fst
  | [], p, i, keyword, results => by
    simp [FileNode.searchByNameLoop, FileNode.nodesLoop]
  | c :: cs, p, i, keyword, results => by
    rw [FileNode.searchByNameLoop, FileNode.searchByName_eq c,
      FileNode.searchByNameLoop_eq cs, FileNode.nodesLoop]
    simp
end

theorem Ptr.before_append (p a b : Ptr) : Ptr.before (p ++ a) (p ++ b) = Ptr.before a b := by
  induction p with
  | nil => rfl
  | cons i p ih => simp [Ptr.before, ih]

theorem Ptr.before_irrefl (p : Ptr) : Ptr.before p p = false := by
  induction p with
  | nil => rfl
  | cons i p ih => simp [Ptr.before, ih]

mutual
theorem FileNode.mem_nodes : ∀ (n : FileNode) (p q : Ptr) (m : FileNode),
    (q, m) ∈ n.nodes p ↔ ∃ r, q = p ++ r ∧ n.deref r = some m
  | FileNode.mk name type size left, p, q, m => by
    rw [FileNode.nodes, List.mem_cons, FileNode.mem_nodesLoop left p 0 q m]
    constructor
    · rintro (h | ⟨j, r, c, hc, hq, hm⟩)
      · cases h
        exact ⟨[], by simp, FileNode.deref_nil _⟩
      · refine ⟨j :: r, by simpa using hq, ?_⟩
        rw [FileNode.deref_cons]
        simp [hc, hm]
    · rintro ⟨r, hq, hm⟩
      cases r with
      | nil =>
        left
        rw [FileNode.deref_nil] at hm
        cases hm
        simp [hq]
      | cons j r =>
        right
        rw [FileNode.deref_cons] at hm
        simp only [FileNode.left_mk] at hm
        cases hc : left[j]? with
        | none => rw [hc] at hm; simp at hm
        | some c =>
          rw [hc] at hm
          exact ⟨j, r, c, hc, by simpa using hq, by simpa using hm⟩
theorem FileNode.mem_nodesLoop : ∀ (cs : List FileNode) (p : Ptr) (i : Nat) (q : Ptr)
    (m : FileNode),
    (q, m) ∈ FileNode.nodesLoop cs p i ↔
      ∃ j r c, cs[j]? = some c ∧ q = p ++ (i + j) :: r ∧ c.deref r = some m
  | [], p, i, q, m => by simp [FileNode.nodesLoop]
  | c :: cs, p, i, q, m => by
    rw [FileNode.nodesLoop, List.mem_append, FileNode.mem_nodes c (p ++ [i]) q m,
      FileNode.mem_nodesLoop cs p (i + 1) q m]
    constructor
    · rintro (⟨r, hq, hm⟩ | ⟨j, r, d, hd, hq, hm⟩)
      · exact ⟨0, r, c, by simp, by simpa using hq, hm⟩
      · exact ⟨j + 1, r, d, by simpa using hd, by rw [hq]; congr 2; omega, hm⟩
    · rintro ⟨j, r, d, hd, hq, hm⟩
      cases j with
      | zero =>
        left
        simp at hd
        subst hd
        exact ⟨r, by simpa using hq, hm⟩
      | succ j =>
        right
        exact ⟨j, r, d, by simpa using hd, by rw [hq]; congr 2; omega, hm⟩
end

/-- Every address listed by `nodes` designates the node listed with it, and
every node of the tree is listed. -/
theorem FileNode.mem_nodes_root (root : FileNode) (q : Ptr) (m : FileNode) :
    (q, m) ∈ root.nodes [] ↔ root.deref q = some m := by
  rw [FileNode.mem_nodes]
  constructor
  · rintro ⟨r, hq, hm⟩
    simp at hq
    rw [hq]; exact hm
  · intro h
    exact ⟨q, by simp, h⟩

mutual
theorem FileNode.nodes_pairwise : ∀ (n : FileNode) (p : Ptr),
    ((n.nodes p).map Prod.fst).Pairwise (fun a b => Ptr.before a b = true)
  | FileNode.mk name type size left, p => by
    rw [FileNode.nodes, List.map_cons, List.pairwise_cons]
    refine ⟨?_, FileNode.nodesLoop_pairwise left p 0⟩
    intro q hq
    obtain ⟨⟨q', m⟩, hmem, rfl⟩ := List.mem_map.1 hq
    obtain ⟨j, r, c, -, hq', -⟩ := (FileNode.mem_nodesLoop left p 0 q' m).1 hmem
    simp only
    rw [hq']
    have := Ptr.before_append p [] ((0 + j) :: r)
    simpa [Ptr.before] using this
theorem FileNode.nodesLoop_pairwise : ∀ (cs : List FileNode) (p : Ptr) (i : Nat),
    ((FileNode.nodesLoop cs p i).map Prod.fst).Pairwise (fun a b => Ptr.before a b = true)
  | [], p, i => by simp [FileNode.nodesLoop]
  | c :: cs, p, i => by
    rw [FileNode.nodesLoop, List.map_append, List.pairwise_append]
    refine ⟨FileNode.nodes_pairwise c (p ++ [i]), FileNode.nodesLoop_pairwise cs p (i + 1), ?_⟩
    intro a ha b hb
    obtain ⟨⟨a', m⟩, hmem, rfl⟩ := List.mem_map.1 ha
    obtain ⟨⟨b', m'⟩, hmem', rfl⟩ := List.mem_map.1 hb
    obtain ⟨r, hr, -⟩ := (FileNode.mem_nodes c (p ++ [i]) a' m).1 hmem
    obtain ⟨j, r', d, -, hr', -⟩ := (FileNode.mem_nodesLoop cs p (i + 1) b' m').1 hmem'
    simp only
    rw [hr, hr', List.append_assoc, Ptr.before_append]
    simp [Ptr.before]
    omega
end

/-- C5: `searchByName` started at the root appends to `results` a list
`found` of node addresses such that an address is in `found` exactly when it
designates a node of the tree whose name contains the keyword as a literal
(case-sensitive) substring, `found` is in pre-order (each entry is visited
before every later one: ancestors first, children left to right) and has no
repetition; with the empty keyword `found` holds every node of the tree, and
when no name contains the keyword it is empty. -/
theorem FileSystem.searchByName_spec (fs : FileSystem) (keyword : String)
    (results : List Ptr) :
    ∃ found : List Ptr,
      fs.searchByName [] keyword results = results ++ found ∧
      (∀ p, p ∈ found ↔
        ∃ n, fs.root.deref p = some n ∧ keyword.data <:+: n.name.data) ∧
      found.Pairwise (fun a b => Ptr.before a b = true) ∧
      found.Nodup ∧
      (keyword = "" → ∀ p, p ∈ found ↔ ∃ n, fs.root.deref p = some n) ∧
      ((∀ p n, fs.root.deref p = some n → ¬ keyword.data <:+: n.name.data) →
        found = []) := by
  have hmem : ∀ p, p ∈ ((fs.root.nodes []).filter
        (fun x => decide (strFindStr x.2.name.data keyword.data ≠ none))).map Prod.fst ↔
      ∃ n, fs.root.deref p = some n ∧ keyword.data <:+: n.name.data := by
    intro p
    constructor
    · intro h
      obtain ⟨⟨q, m⟩, hx, rfl⟩ := List.mem_map.1 h
      rw [List.mem_filter] at hx
      obtain ⟨h1, h2⟩ := hx
      refine ⟨m, (FileNode.mem_nodes_root _ _ _).1 h1, ?_⟩
      exact (strFindStr_ne_none _ _).1 (of_decide_eq_true h2)
    · rintro ⟨n, h1, h2⟩
      refine List.mem_map.2 ⟨(p, n), ?_, rfl⟩
      rw [List.mem_filter]
      exact ⟨(FileNode.mem_nodes_root _ _ _).2 h1,
        decide_eq_true ((strFindStr_ne_none _ _).2 h2)⟩
  have hpw : (((fs.root.nodes []).filter
        (fun x => decide (strFindStr x.2.name.data keyword.data ≠ none))).map
        Prod.fst).Pairwise (fun a b => Ptr.before a b = true) :=
    List.Pairwise.sublist ((List.filter_sublist _).map Prod.fst)
      (FileNode.nodes_pairwise fs.root [])
  refine ⟨_, ?_, hmem, hpw, ?_, ?_, ?_⟩
  · unfold FileSystem.searchByName
    rw [FileNode.deref_nil]
    exact FileNode.searchByName_eq fs.root [] keyword results
  · refine List.Pairwise.imp ?_ hpw
    intro a b hab heq
    subst heq
    rw [Ptr.before_irrefl] at hab
    cases hab
  · intro hk p
    rw [hmem p, hk]
    constructor
    · rintro ⟨n, h1, -⟩
      exact ⟨n, h1⟩
    · rintro ⟨n, h1⟩
      exact ⟨n, h1, List.nil_infix⟩
  · intro hnone
    apply List.eq_nil_iff_forall_not_mem.2
    intro p hp
    obtain ⟨n, h1, h2⟩ := (hmem p).1 hp
    exact hnone p n h1 h2

/-! ### `remove` -/

theorem FileSystem.unlinkLoop_eq (cs : List FileNode) (i k : Nat) (h : i < k) :
    FileSystem.unlinkLoop cs i k = cs.eraseIdx (k - i) := by
  induction cs generalizing i with
  | nil => simp [FileSystem.unlinkLoop]
  | cons temp right ih =>
    by_cases hk : i + 1 = k
    · have : k - i = 1 := by omega
      simp [FileSystem.unlinkLoop, hk, this, List.drop_one]
    · have h1 : k - i = (k - (i + 1)) + 1 := by omega
      rw [FileSystem.unlinkLoop, if_neg hk, ih (i + 1) (by omega), h1,
        List.eraseIdx_cons_succ]

/-- What `remove` writes into the current directory: the chain without its
entry number `k`. -/
theorem FileSystem.remove_chain_eq (d : FileNode) (k : Nat) :
    (if k = 0 then FileNode.mk d.name d.type d.size (d.left.drop 1)
     else FileNode.mk d.name d.type d.size (FileSystem.unlinkLoop d.left 0 k)) =
      FileNode.mk d.name d.type d.size (d.left.eraseIdx k) := by
  by_cases hk : k = 0
  · subst hk
    simp [List.drop_one]
  · rw [if_neg hk, FileSystem.unlinkLoop_eq _ _ _ (by omega)]
    simp

theorem FileSystem.remove_of_absent (fs : FileSystem) (name : String) (cur : FileNode)
    (hcur : fs.root.deref fs.current = some cur) (habs : ∀ c ∈ cur.left, c.name ≠ name) :
    fs.remove name = (false, fs) := by
  have hfind : fs.findInCurrentDir name = none := by
    rw [FileSystem.findInCurrentDir_eq fs name cur hcur]
    exact (FileSystem.findLoop_eq_none _ _ _).2 habs
  unfold FileSystem.remove
  rw [hfind]

/-- The state after a successful `remove`: the first child carrying the name
is taken out of the chain of the current directory. -/
theorem FileSystem.remove_of_found (fs : FileSystem) (name : String) (cur : FileNode)
    (hcur : fs.root.deref fs.current = some cur) (hpres : ∃ c ∈ cur.left, c.name = name) :
    ∃ k c, cur.left[k]? = some c ∧ c.name = name ∧
      (∀ j, j < k → ∀ c', cur.left[j]? = some c' → c'.name ≠ name) ∧
      fs.remove name =
        (true, { fs with root := fs.root.update fs.current (fun d =>
            FileNode.mk d.name d.type d.size (d.left.eraseIdx k)) }) := by
  cases hf : FileSystem.findLoop cur.left name 0 with
  | none =>
    obtain ⟨c, hc, hn⟩ := hpres
    exact absurd hn ((FileSystem.findLoop_eq_none _ _ _).1 hf c hc)
  | some r =>
    obtain ⟨k, t⟩ := r
    obtain ⟨j, hk, hj, hn, hfirst⟩ := FileSystem.findLoop_eq_some _ _ _ _ _ hf
    have hkj : k = j := by omega
    subst hkj
    refine ⟨k, t, hj, hn, hfirst, ?_⟩
    unfold FileSystem.remove
    rw [FileSystem.findInCurrentDir_eq fs name cur hcur, hf]
    simp only [FileSystem.remove_chain_eq]

mutual
theorem FileNode.nodes_prefix : ∀ (n : FileNode) (p : Ptr),
    n.nodes p = (n.nodes []).map (fun x => (p ++ x.1, x.2))
  | FileNode.mk name type size left, p => by
    simp only [FileNode.nodes]
    rw [FileNode.nodesLoop_prefix left p 0]
    simp
theorem FileNode.nodesLoop_prefix : ∀ (cs : List FileNode) (p : Ptr) (i : Nat),
    FileNode.nodesLoop cs p i = (FileNode.nodesLoop cs [] i).map (fun x => (p ++ x.1, x.2))
  | [], p, i => by simp [FileNode.nodesLoop]
  | c :: cs, p, i => by
    simp only [FileNode.nodesLoop]
    rw [FileNode.nodes_prefix c (p ++ [i]), FileNode.nodesLoop_prefix cs p (i + 1),
      List.nil_append, FileNode.nodes_prefix c [i]]
    simp
end

theorem FileNode.nodesLoop_cons (c : FileNode) (cs : List FileNode) (i : Nat) :
    FileNode.nodesLoop (c :: cs) [] i =
      (c.nodes []).map (fun x => (i :: x.1, x.2)) ++ FileNode.nodesLoop cs [] (i + 1) := by
  rw [FileNode.nodesLoop, List.nil_append, FileNode.nodes_prefix c [i]]
  rfl

/-- Behind the unlinked child every index goes down by one. -/
theorem FileNode.nodesLoop_shift (cs : List FileNode) (i K : Nat) (h : K ≤ i) :
    (FileNode.nodesLoop cs [] (i + 1)).filterMap (FileNode.addrNameAfterRemove [] K) =
      (FileNode.nodesLoop cs [] i).map FileNode.addrName := by
  induction cs generalizing i with
  | nil => simp [FileNode.nodesLoop]
  | cons c cs ih =>
    rw [FileNode.nodesLoop_cons, FileNode.nodesLoop_cons, List.filterMap_append,
      List.map_append, ih (i + 1) (by omega), List.filterMap_map, List.map_map]
    congr 1
    rw [← List.filterMap_eq_map]
    congr 1
    funext x
    have h1 : ¬ i + 1 < K := by omega
    have h2 : ¬ i + 1 = K := by omega
    simp [FileNode.addrNameAfterRemove, Ptr.afterRemove, h1, h2, FileNode.addrName]

/-- The listing of a chain without its entry number `k`. -/
theorem FileNode.nodesLoop_eraseIdx (l : List FileNode) (i k : Nat) :
    (FileNode.nodesLoop (l.eraseIdx k) [] i).map FileNode.addrName =
      (FileNode.nodesLoop l [] i).filterMap (FileNode.addrNameAfterRemove [] (i + k)) := by
  induction l generalizing i k with
  | nil => simp [FileNode.nodesLoop]
  | cons c cs ih =>
    cases k with
    | zero =>
      rw [List.eraseIdx_cons_zero, FileNode.nodesLoop_cons, List.filterMap_append,
        Nat.add_zero, FileNode.nodesLoop_shift cs i i (Nat.le_refl _), List.filterMap_map]
      have : List.filterMap (FileNode.addrNameAfterRemove [] i ∘ fun x => (i :: x.1, x.2))
          (c.nodes []) = [] := by
        apply List.filterMap_eq_nil_iff.2
        intro x _
        simp [FileNode.addrNameAfterRemove, Ptr.afterRemove]
      rw [this, List.nil_append]
    | succ k =>
      rw [List.eraseIdx_cons_succ, FileNode.nodesLoop_cons, FileNode.nodesLoop_cons,
        List.map_append, List.filterMap_append, ih (i + 1) k, List.filterMap_map,
        List.map_map]
      have hk : i + 1 + k = i + (k + 1) := by omega
      rw [hk]
      congr 1
      rw [← List.filterMap_eq_map]
      congr 1
      funext x
      have h1 : i < i + (k + 1) := by omega
      simp [FileNode.addrNameAfterRemove, Ptr.afterRemove, h1, FileNode.addrName]

/-- Away from the branch of the unlinking nothing moves. -/
theorem FileNode.nodesLoop_off_branch (cs : List FileNode) (i J : Nat) (cur : Ptr) (k : Nat)
    (h : J < i) :
    (FileNode.nodesLoop cs [] i).filterMap (FileNode.addrNameAfterRemove (J :: cur) k) =
      (FileNode.nodesLoop cs [] i).map FileNode.addrName := by
  induction cs generalizing i with
  | nil => simp [FileNode.nodesLoop]
  | cons c cs ih =>
    rw [FileNode.nodesLoop_cons, List.filterMap_append, List.map_append,
      ih (i + 1) (by omega), List.filterMap_map, List.map_map]
    congr 1
    rw [← List.filterMap_eq_map]
    congr 1
    funext x
    have h1 : ¬ J = i := by omega
    simp [FileNode.addrNameAfterRemove, Ptr.afterRemove, h1, FileNode.addrName]

/-- The listing of a chain one of whose entries has been rewritten below. -/
theorem FileNode.nodesLoop_modify (f : FileNode → FileNode) (cur : Ptr) (k : Nat)
    (hf : ∀ c : FileNode, ((f c).nodes []).map FileNode.addrName =
      (c.nodes []).filterMap (FileNode.addrNameAfterRemove cur k))
    (l : List FileNode) (i j : Nat) :
    (FileNode.nodesLoop (l.modify f j) [] i).map FileNode.addrName =
      (FileNode.nodesLoop l [] i).filterMap
        (FileNode.addrNameAfterRemove ((i + j) :: cur) k) := by
  induction l generalizing i j with
  | nil => simp [FileNode.nodesLoop]
  | cons c cs ih =>
    cases j with
    | zero =>
      have h0 : i + 0 = i := rfl
      rw [h0, List.modify_zero_cons, FileNode.nodesLoop_cons, FileNode.nodesLoop_cons,
        List.map_append, List.filterMap_append,
        FileNode.nodesLoop_off_branch cs (i + 1) i cur k (by omega)]
      congr 1
      have h1 : List.map FileNode.addrName (List.map (fun x => (i :: x.1, x.2)) ((f c).nodes []))
          = List.map (fun y : Ptr × String => (i :: y.1, y.2))
              (List.map FileNode.addrName ((f c).nodes [])) := by
        simp [List.map_map, FileNode.addrName, Function.comp_def]
      rw [h1, hf c, List.map_filterMap, List.filterMap_map]
      congr 1
      funext x
      simp only [FileNode.addrNameAfterRemove, Ptr.afterRemove, Function.comp_apply,
        if_true, Option.map_map]
      rfl
    | succ j =>
      rw [List.modify_succ_cons, FileNode.nodesLoop_cons, FileNode.nodesLoop_cons,
        List.map_append, List.filterMap_append, ih (i + 1) j, List.filterMap_map,
        List.map_map]
      have hk : i + 1 + j = i + (j + 1) := by omega
      rw [hk]
      congr 1
      rw [← List.filterMap_eq_map]
      congr 1
      funext x
      have h1 : ¬ i + (j + 1) = i := by omega
      simp [FileNode.addrNameAfterRemove, Ptr.afterRemove, h1, FileNode.addrName]

/-- The listing of the tree after child number `k` of the node at `cur` has
been unlinked: the nodes outside the unlinked subtree, in the same order,
under their new addresses. -/
theorem FileNode.nodes_update_eraseIdx (cur : Ptr) (k : Nat) (root : FileNode) :
    ((root.update cur (fun d =>
        FileNode.mk d.name d.type d.size (d.left.eraseIdx k))).nodes []).map FileNode.addrName =
      (root.nodes []).filterMap (FileNode.addrNameAfterRemove cur k) := by
  induction cur generalizing root with
  | nil =>
    cases root with
    | mk n t s l =>
      rw [FileNode.update_nil]
      simp only [FileNode.nodes, FileNode.left_mk, FileNode.name_mk, FileNode.type_mk,
        FileNode.size_mk, List.map_cons, List.filterMap_cons]
      have := FileNode.nodesLoop_eraseIdx l 0 k
      rw [Nat.zero_add] at this
      rw [this]
      simp [FileNode.addrNameAfterRemove, Ptr.afterRemove, FileNode.addrName]
  | cons j cur ih =>
    cases root with
    | mk n t s l =>
      rw [FileNode.update_cons]
      simp only [FileNode.nodes, FileNode.left_mk, FileNode.name_mk, FileNode.type_mk,
        FileNode.size_mk, List.map_cons, List.filterMap_cons]
      have := FileNode.nodesLoop_modify _ cur k (fun c => ih c) l 0 j
      rw [Nat.zero_add] at this
      rw [this]
      simp [FileNode.addrNameAfterRemove, Ptr.afterRemove, FileNode.addrName]

/-- A search over a listing, and over the listing after an unlinking. -/
theorem FileNode.filter_after_remove (cur : Ptr) (k : Nat) (m : String → Bool)
    (L : List (Ptr × FileNode)) :
    ((L.filterMap (FileNode.addrNameAfterRemove cur k)).filter (fun y => m y.2)).map Prod.fst =
      ((L.filter (fun x => m x.2.name)).map Prod.fst).filterMap (Ptr.afterRemove cur k) := by
  induction L with
  | nil => rfl
  | cons x L ih =>
    cases hx : Ptr.afterRemove cur k x.1 with
    | none =>
      by_cases hm : m x.2.name = true
      · simp [List.filterMap_cons, List.filter_cons, FileNode.addrNameAfterRemove, hx, hm, ih]
      · simp [List.filterMap_cons, List.filter_cons, FileNode.addrNameAfterRemove, hx, hm, ih]
    | some q =>
      by_cases hm : m x.2.name = true
      · simp [List.filterMap_cons, List.filter_cons, FileNode.addrNameAfterRemove, hx, hm, ih]
      · simp [List.filterMap_cons, List.filter_cons, FileNode.addrNameAfterRemove, hx, hm, ih]

/-- The nodes without a new address are the nodes of the unlinked subtree. -/
theorem Ptr.afterRemove_eq_none (cur : Ptr) (k : Nat) (q : Ptr) :
    Ptr.afterRemove cur k q = none ↔ (cur ++ [k]) <+: q := by
  induction cur generalizing q with
  | nil =>
    cases q with
    | nil => simp [Ptr.afterRemove]
    | cons j r =>
      simp only [Ptr.afterRemove, List.nil_append, List.cons_prefix_cons, List.nil_prefix,
        and_true]
      by_cases h1 : j < k
      · simp [h1]; omega
      · by_cases h2 : j = k
        · simp [h1, h2]
        · simp [h1, h2]; omega
  | cons i cur ih =>
    cases q with
    | nil => simp [Ptr.afterRemove]
    | cons j r =>
      simp only [Ptr.afterRemove, List.cons_append, List.cons_prefix_cons]
      by_cases h : i = j
      · simp [h, ih r]
      · simp [h]

theorem FileNode.filter_addrName (m : String → Bool) (L : List (Ptr × FileNode)) :
    ((L.map FileNode.addrName).filter (fun y => m y.2)).map Prod.fst =
      (L.filter (fun x => m x.2.name)).map Prod.fst := by
  induction L with
  | nil => rfl
  | cons x L ih =>
    by_cases hm : m x.2.name = true
    · simp [List.filter_cons, FileNode.addrName, hm] at ih ⊢
      exact ih
    · simp [List.filter_cons, FileNode.addrName, hm] at ih ⊢
      exact ih

/-- The search after an unlinking in terms of the search before it. -/
theorem FileNode.searchByName_update_eraseIdx (cur : Ptr) (k : Nat) (root : FileNode)
    (keyword : String) :
    (root.update cur (fun d =>
        FileNode.mk d.name d.type d.size (d.left.eraseIdx k))).searchByName [] keyword [] =
      (root.searchByName [] keyword []).filterMap (Ptr.afterRemove cur k) := by
  rw [FileNode.searchByName_eq, FileNode.searchByName_eq, List.nil_append, List.nil_append]
  rw [← FileNode.filter_addrName
      (fun nm => decide (strFindStr nm.data keyword.data ≠ none)),
    FileNode.nodes_update_eraseIdx]
  exact FileNode.filter_after_remove cur k
    (fun nm => decide (strFindStr nm.data keyword.data ≠ none)) (root.nodes [])

/-- C2: in a state whose cursor designates the node `cur`, `remove` returns
false exactly when no child of `cur` has the name, and then the state is
unchanged; otherwise it returns true, the cursor is unchanged, the current
directory keeps its fields and its chain is the old one with the first child
`k` of that name taken out (order of the others kept, their subtrees as they
were), every node that is not at or below the current directory keeps its
fields and its number of children, and for every keyword the search from the
root returns exactly the nodes the search returned before that lie outside
the removed subtree, in the same order and under their new addresses; the
nodes of the removed subtree have no address any more.  After `remove docs`
in the scenario, the root has no child and the search for `a.txt` is empty. -/
theorem FileSystem.remove_spec (fs : FileSystem) (name : String) (cur : FileNode)
    (hcur : fs.root.deref fs.current = some cur) :
    ((fs.remove name).1 = false ↔ ∀ c ∈ cur.left, c.name ≠ name) ∧
    ((fs.remove name).1 = false → (fs.remove name).2 = fs) ∧
    ((fs.remove name).1 = true →
      ∃ k c, cur.left[k]? = some c ∧ c.name = name ∧
        (∀ j, j < k → ∀ c', cur.left[j]? = some c' → c'.name ≠ name) ∧
        (fs.remove name).2.current = fs.current ∧
        (fs.remove name).2.root.deref fs.current =
          some (FileNode.mk cur.name cur.type cur.size (cur.left.eraseIdx k)) ∧
        (∀ q : Ptr, ¬ fs.current <+: q →
          ((fs.remove name).2.root.deref q).map FileNode.fields =
            (fs.root.deref q).map FileNode.fields) ∧
        (∀ q : Ptr, Ptr.afterRemove fs.current k q = none ↔ (fs.current ++ [k]) <+: q) ∧
        (∀ keyword : String,
          (fs.remove name).2.searchByName [] keyword [] =
            (fs.searchByName [] keyword []).filterMap (Ptr.afterRemove fs.current k))) ∧
    (FileSystem.scenario.remove "docs").1 = true ∧
    (FileSystem.scenario.remove "docs").2.root =
      FileNode.mk "root" FileType.DIRECTORY 0 [] ∧
    (FileSystem.scenario.remove "docs").2.searchByName [] "a.txt" [] = [] := by
  refine ⟨?_, ?_, ?_, rfl, rfl, by decide⟩
  · by_cases hpres : ∃ c ∈ cur.left, c.name = name
    · obtain ⟨k, c, -, -, -, heq⟩ := FileSystem.remove_of_found fs name cur hcur hpres
      rw [heq]
      obtain ⟨c', hc', hn'⟩ := hpres
      simp only [Bool.true_eq_false, false_iff]
      intro h
      exact h c' hc' hn'
    · have habs : ∀ c ∈ cur.left, c.name ≠ name := fun c hc hn => hpres ⟨c, hc, hn⟩
      rw [FileSystem.remove_of_absent fs name cur hcur habs]
      simpa using habs
  · intro h
    by_cases hpres : ∃ c ∈ cur.left, c.name = name
    · obtain ⟨k, c, -, -, -, heq⟩ := FileSystem.remove_of_found fs name cur hcur hpres
      rw [heq] at h
      cases h
    · have habs : ∀ c ∈ cur.left, c.name ≠ name := fun c hc hn => hpres ⟨c, hc, hn⟩
      rw [FileSystem.remove_of_absent fs name cur hcur habs]
  · intro h
    have hpres : ∃ c ∈ cur.left, c.name = name := by
      by_contra hno
      have habs : ∀ c ∈ cur.left, c.name ≠ name := fun c hc hn => hno ⟨c, hc, hn⟩
      rw [FileSystem.remove_of_absent fs name cur hcur habs] at h
      cases h
    obtain ⟨k, c, hk, hn, hfirst, heq⟩ := FileSystem.remove_of_found fs name cur hcur hpres
    refine ⟨k, c, hk, hn, hfirst, ?_⟩
    rw [heq]
    refine ⟨rfl, ?_, ?_, Ptr.afterRemove_eq_none fs.current k, ?_⟩
    · exact FileNode.deref_update_self fs.current fs.root cur _ hcur
    · intro q hq
      exact FileNode.deref_update_frame _ _ _ q hq
    · intro keyword
      unfold FileSystem.searchByName
      rw [FileNode.deref_nil, FileNode.deref_nil]
      exact FileNode.searchByName_update_eraseIdx fs.current k fs.root keyword

/-- Witness for C2: removing `docs` in the scenario. -/
theorem FileSystem.remove_spec_witness :
    ∃ k c, [FileNode.mk "docs" FileType.DIRECTORY 0
        [FileNode.mk "a.txt" FileType.TEXT 10 [],
         FileNode.mk "b.jpg" FileType.IMAGE 20 []]][k]? = some c ∧
      c.name = "docs" ∧
      (FileSystem.scenario.remove "docs").2.searchByName [] "" [] =
        (FileSystem.scenario.searchByName [] "" []).filterMap (Ptr.afterRemove [] k) := by
  obtain ⟨k, c, h1, h2, -, -, -, -, -, h3⟩ :=
    (FileSystem.remove_spec FileSystem.scenario "docs"
      (FileNode.mk "root" FileType.DIRECTORY 0
        [FileNode.mk "docs" FileType.DIRECTORY 0
          [FileNode.mk "a.txt" FileType.TEXT 10 [],
           FileNode.mk "b.jpg" FileType.IMAGE 20 []]]) rfl).2.2.1 rfl
  exact ⟨k, c, h1, h2, h3 ""⟩

/-! ### `classifyByType` -/

mutual
theorem FileNode.classifyByType_eq : ∀ (n : FileNode) (p : Ptr) (types : Buckets),
    n.classifyByType p types =
      fun t => types t ++
        ((n.nodesPost p).filter (fun x => decide (x.2.type = t))).map Prod.fst
  | FileNode.mk name type size left, p, types => by
    rw [FileNode.classifyByType, FileNode.nodesPost,
      FileNode.classifyByTypeLoop_eq left p 0 types]
    funext u
    by_cases h : u = type
    · subst h
      simp [Buckets.pushBack, List.filter_append]
    · have h2 : ¬ type = u := fun e => h e.symm
      simp [Buckets.pushBack, List.filter_append, h, h2, List.filter_cons]
theorem FileNode.classifyByTypeLoop_eq : ∀ (cs : List FileNode) (p : Ptr) (i : Nat)
    (types : Buckets),
    FileNode.classifyByTypeLoop cs p i types =
      fun t => types t ++
        ((FileNode.nodesPostLoop cs p i).filter (fun x => decide (x.2.type = t))).map Prod.fst
  | [], p, i, types => by
    simp [FileNode.classifyByTypeLoop, FileNode.nodesPostLoop]
  | c :: cs, p, i, types => by
    rw [FileNode.classifyByTypeLoop, FileNode.classifyByType_eq c,
      FileNode.classifyByTypeLoop_eq cs, FileNode.nodesPostLoop]
    funext u
    simp [List.filter_append]
end

mutual
theorem FileNode.mem_nodesPost : ∀ (n : FileNode) (p q : Ptr) (m : FileNode),
    (q, m) ∈ n.nodesPost p ↔ ∃ r, q = p ++ r ∧ n.deref r = some m
  | FileNode.mk name type size left, p, q, m => by
    rw [FileNode.nodesPost, List.mem_append, List.mem_singleton,
      FileNode.mem_nodesPostLoop left p 0 q m]
    constructor
    · rintro (⟨j, r, c, hc, hq, hm⟩ | h)
      · refine ⟨j :: r, by simpa using hq, ?_⟩
        rw [FileNode.deref_cons]
        simp [hc, hm]
      · cases h
        exact ⟨[], by simp, FileNode.deref_nil _⟩
    · rintro ⟨r, hq, hm⟩
      cases r with
      | nil =>
        right
        rw [FileNode.deref_nil] at hm
        cases hm
        simp [hq]
      | cons j r =>
        left
        rw [FileNode.deref_cons] at hm
        simp only [FileNode.left_mk] at hm
        cases hc : left[j]? with
        | none => rw [hc] at hm; simp at hm
        | some c =>
          rw [hc] at hm
          exact ⟨j, r, c, hc, by simpa using hq, by simpa using hm⟩
theorem FileNode.mem_nodesPostLoop : ∀ (cs : List FileNode) (p : Ptr) (i : Nat) (q : Ptr)
    (m : FileNode),
    (q, m) ∈ FileNode.nodesPostLoop cs p i ↔
      ∃ j r c, cs[j]? = some c ∧ q = p ++ (i + j) :: r ∧ c.deref r = some m
  | [], p, i, q, m => by simp [FileNode.nodesPostLoop]
  | c :: cs, p, i, q, m => by
    rw [FileNode.nodesPostLoop, List.mem_append, FileNode.mem_nodesPost c (p ++ [i]) q m,
      FileNode.mem_nodesPostLoop cs p (i + 1) q m]
    constructor
    · rintro (⟨r, hq, hm⟩ | ⟨j, r, d, hd, hq, hm⟩)
      · exact ⟨0, r, c, by simp, by simpa using hq, hm⟩
      · exact ⟨j + 1, r, d, by simpa using hd, by rw [hq]; congr 2; omega, hm⟩
    · rintro ⟨j, r, d, hd, hq, hm⟩
      cases j with
      | zero =>
        left
        simp at hd
        subst hd
        exact ⟨r, by simpa using hq, hm⟩
      | succ j =>
        right
        exact ⟨j, r, d, by simpa using hd, by rw [hq]; congr 2; omega, hm⟩
end

theorem Ptr.beforePost_append (p a b : Ptr) :
    Ptr.beforePost (p ++ a) (p ++ b) = Ptr.beforePost a b := by
  induction p with
  | nil => rfl
  | cons i p ih => simp [Ptr.beforePost, ih]

theorem Ptr.beforePost_irrefl (p : Ptr) : Ptr.beforePost p p = false := by
  induction p with
  | nil => rfl
  | cons i p ih => simp [Ptr.beforePost, ih]

mutual
theorem FileNode.nodesPost_pairwise : ∀ (n : FileNode) (p : Ptr),
    ((n.nodesPost p).map Prod.fst).Pairwise (fun a b => Ptr.beforePost a b = true)
  | FileNode.mk name type size left, p => by
    rw [FileNode.nodesPost, List.map_append, List.pairwise_append]
    refine ⟨FileNode.nodesPostLoop_pairwise left p 0, by simp, ?_⟩
    intro a ha b hb
    obtain ⟨⟨a', m⟩, hmem, rfl⟩ := List.mem_map.1 ha
    obtain ⟨j, r, c, -, ha', -⟩ := (FileNode.mem_nodesPostLoop left p 0 a' m).1 hmem
    simp only [List.map_cons, List.map_nil, List.mem_singleton] at hb
    simp only
    rw [hb, ha']
    have := Ptr.beforePost_append p ((0 + j) :: r) []
    simpa [Ptr.beforePost] using this
theorem FileNode.nodesPostLoop_pairwise : ∀ (cs : List FileNode) (p : Ptr) (i : Nat),
    ((FileNode.nodesPostLoop cs p i).map Prod.fst).Pairwise
      (fun a b => Ptr.beforePost a b = true)
  | [], p, i => by simp [FileNode.nodesPostLoop]
  | c :: cs, p, i => by
    rw [FileNode.nodesPostLoop, List.map_append, List.pairwise_append]
    refine ⟨FileNode.nodesPost_pairwise c (p ++ [i]),
      FileNode.nodesPostLoop_pairwise cs p (i + 1), ?_⟩
    intro a ha b hb
    obtain ⟨⟨a', m⟩, hmem, rfl⟩ := List.mem_map.1 ha
    obtain ⟨⟨b', m'⟩, hmem', rfl⟩ := List.mem_map.1 hb
    obtain ⟨r, hr, -⟩ := (FileNode.mem_nodesPost c (p ++ [i]) a' m).1 hmem
    obtain ⟨j, r', d, -, hr', -⟩ := (FileNode.mem_nodesPostLoop cs p (i + 1) b' m').1 hmem'
    simp only
    rw [hr, hr', List.append_assoc, Ptr.beforePost_append]
    simp [Ptr.beforePost]
    omega
end

/-- C8: `classifyByType` started at the root with six empty buckets puts the
address of a node into the bucket `t` exactly when the node is in the tree
and has type `t`, so every node is in the bucket of its type and in no other;
no bucket holds an address twice; and every bucket is in post-order (each
entry is visited before every later one: descendants before the node,
children left to right).  In the scenario the Directory bucket is `docs`,
then the root. -/
theorem FileSystem.classifyByType_spec (fs : FileSystem) :
    (∀ (t : FileType) (p : Ptr),
      p ∈ fs.classifyByType [] (fun _ => []) t ↔
        ∃ n, fs.root.deref p = some n ∧ n.type = t) ∧
    (∀ (p : Ptr) (n : FileNode), fs.root.deref p = some n →
      p ∈ fs.classifyByType [] (fun _ => []) n.type ∧
      ∀ u, u ≠ n.type → p ∉ fs.classifyByType [] (fun _ => []) u) ∧
    (∀ t : FileType, (fs.classifyByType [] (fun _ => []) t).Nodup) ∧
    (∀ t : FileType, (fs.classifyByType [] (fun _ => []) t).Pairwise
      (fun a b => Ptr.beforePost a b = true)) ∧
    FileSystem.scenario.classifyByType [] (fun _ => []) FileType.DIRECTORY = [[0], []] := by
  have heq : ∀ t, fs.classifyByType [] (fun _ => []) t =
      ((fs.root.nodesPost []).filter (fun x => decide (x.2.type = t))).map Prod.fst := by
    intro t
    unfold FileSystem.classifyByType
    rw [FileNode.deref_nil]
    simp only [FileNode.classifyByType_eq, List.nil_append]
  have hmem : ∀ (t : FileType) (p : Ptr),
      p ∈ fs.classifyByType [] (fun _ => []) t ↔
        ∃ n, fs.root.deref p = some n ∧ n.type = t := by
    intro t p
    rw [heq t]
    constructor
    · intro h
      obtain ⟨⟨q, m⟩, hx, rfl⟩ := List.mem_map.1 h
      rw [List.mem_filter] at hx
      obtain ⟨h1, h2⟩ := hx
      obtain ⟨r, hr, hm⟩ := (FileNode.mem_nodesPost _ _ _ _).1 h1
      simp only [List.nil_append] at hr
      subst hr
      exact ⟨m, hm, of_decide_eq_true h2⟩
    · rintro ⟨n, h1, h2⟩
      refine List.mem_map.2 ⟨(p, n), ?_, rfl⟩
      rw [List.mem_filter]
      exact ⟨(FileNode.mem_nodesPost _ _ _ _).2 ⟨p, by simp, h1⟩, decide_eq_true h2⟩
  have hpw : ∀ t : FileType, (fs.classifyByType [] (fun _ => []) t).Pairwise
      (fun a b => Ptr.beforePost a b = true) := by
    intro t
    rw [heq t]
    exact List.Pairwise.sublist ((List.filter_sublist _).map Prod.fst)
      (FileNode.nodesPost_pairwise fs.root [])
  refine ⟨hmem, ?_, ?_, hpw, by decide⟩
  · intro p n hn
    refine ⟨(hmem n.type p).2 ⟨n, hn, rfl⟩, ?_⟩
    intro u hu hp
    obtain ⟨n', hn', ht⟩ := (hmem u p).1 hp
    rw [hn] at hn'
    cases hn'
    exact hu ht.symm
  · intro t
    refine List.Pairwise.imp ?_ (hpw t)
    intro a b hab heq
    subst heq
    rw [Ptr.beforePost_irrefl] at hab
    cases hab

/-! ### Induction over trees, and `calculateSize` -/

mutual
theorem FileNode.induction_on {P : FileNode → Prop}
    (step : ∀ (name : String) (type : FileType) (size : Int) (left : List FileNode),
      (∀ c ∈ left, P c) → P (FileNode.mk name type size left)) :
    ∀ n : FileNode, P n
  | FileNode.mk name type size left =>
    step name type size left (FileNode.induction_on_list step left)
theorem FileNode.induction_on_list {P : FileNode → Prop}
    (step : ∀ (name : String) (type : FileType) (size : Int) (left : List FileNode),
      (∀ c ∈ left, P c) → P (FileNode.mk name type size left)) :
    ∀ (cs : List FileNode), ∀ c ∈ cs, P c
  | [], c, h => absurd h (List.not_mem_nil c)
  | d :: cs, c, h =>
    (List.mem_cons.1 h).elim (fun e => e ▸ FileNode.induction_on step d)
      (fun h' => FileNode.induction_on_list step cs c h')
end

/-- Inside the range of `int` nothing is wrapped. -/
theorem wrapInt_of_range (x : Int) (h1 : -2147483648 ≤ x) (h2 : x < 2147483648) :
    wrapInt x = x := by
  unfold wrapInt
  omega

theorem wrapInt_range (x : Int) : -2147483648 ≤ wrapInt x ∧ wrapInt x < 2147483648 := by
  unfold wrapInt
  omega

theorem wrapInt_wrapInt (x : Int) : wrapInt (wrapInt x) = wrapInt x := by
  unfold wrapInt
  omega

theorem wrapInt_add_left (a b : Int) : wrapInt (wrapInt a + b) = wrapInt (a + b) := by
  unfold wrapInt
  omega

/-- Wrapping a sum only depends on the wrapped summands. -/
theorem wrapInt_add_congr (a a' b b' : Int) (ha : wrapInt a = wrapInt a')
    (hb : wrapInt b = wrapInt b') : wrapInt (a + b) = wrapInt (a' + b') := by
  unfold wrapInt at *
  omega

theorem wrapInt_sum_congr {α : Type} (l : List α) (f g : α → Int)
    (h : ∀ c ∈ l, wrapInt (f c) = wrapInt (g c)) :
    wrapInt (l.map f).sum = wrapInt (l.map g).sum := by
  induction l with
  | nil => rfl
  | cons c cs ih =>
    simp only [List.map_cons, List.sum_cons]
    exact wrapInt_add_congr _ _ _ _ (h c (List.mem_cons_self c cs))
      (ih (fun d hd => h d (List.mem_cons_of_mem c hd)))

/-- The loop of `calculateSize` adds the values returned for the children to
`totalSize`, in `int` arithmetic, and rewrites every child. -/
theorem FileNode.calculateSizeLoop_eq (cs : List FileNode) (totalSize : Int)
    (h : wrapInt totalSize = totalSize) :
    FileNode.calculateSizeLoop cs totalSize =
      (wrapInt (totalSize + (cs.map (fun c => (FileNode.calculateSize c).1)).sum),
        cs.map (fun c => (FileNode.calculateSize c).2)) := by
  induction cs generalizing totalSize with
  | nil => simp [FileNode.calculateSizeLoop, h]
  | cons c cs ih =>
    rw [FileNode.calculateSizeLoop, ih _ (wrapInt_wrapInt _), wrapInt_add_left]
    simp [Int.add_assoc]

theorem FileNode.calculateSize_mk (name : String) (type : FileType) (size : Int)
    (left : List FileNode) :
    FileNode.calculateSize (FileNode.mk name type size left) =
      if type ≠ FileType.DIRECTORY then (size, FileNode.mk name type size left)
      else
        (wrapInt (left.map (fun c => (FileNode.calculateSize c).1)).sum,
          FileNode.mk name type (wrapInt (left.map (fun c => (FileNode.calculateSize c).1)).sum)
            (left.map (fun c => (FileNode.calculateSize c).2))) := by
  rw [FileNode.calculateSize, FileNode.calculateSizeLoop_eq left 0 (by decide)]
  simp

theorem FileNode.calculateSize_of_not_dir (n : FileNode) (h : n.type ≠ FileType.DIRECTORY) :
    n.calculateSize = (n.size, n) := by
  cases n with
  | mk name type size left =>
    simp only [FileNode.type_mk] at h
    rw [FileNode.calculateSize_mk, if_pos h]
    rfl

theorem FileNode.calculateSize_of_dir (n : FileNode) (h : n.type = FileType.DIRECTORY) :
    n.calculateSize =
      (wrapInt (n.left.map (fun c => (FileNode.calculateSize c).1)).sum,
        FileNode.mk n.name n.type
          (wrapInt (n.left.map (fun c => (FileNode.calculateSize c).1)).sum)
          (n.left.map (fun c => (FileNode.calculateSize c).2))) := by
  cases n with
  | mk name type size left =>
    simp only [FileNode.type_mk] at h
    rw [FileNode.calculateSize_mk, if_neg (by simp [h])]
    rfl

/-- The value returned is the size the node has after the call. -/
theorem FileNode.calculateSize_size (n : FileNode) :
    (n.calculateSize).2.size = (n.calculateSize).1 := by
  by_cases h : n.type = FileType.DIRECTORY
  · rw [FileNode.calculateSize_of_dir n h]
    rfl
  · rw [FileNode.calculateSize_of_not_dir n h]

theorem FileNode.calculateSize_name (n : FileNode) : (n.calculateSize).2.name = n.name := by
  by_cases h : n.type = FileType.DIRECTORY
  · rw [FileNode.calculateSize_of_dir n h]
    rfl
  · rw [FileNode.calculateSize_of_not_dir n h]

theorem FileNode.calculateSize_type (n : FileNode) : (n.calculateSize).2.type = n.type := by
  by_cases h : n.type = FileType.DIRECTORY
  · rw [FileNode.calculateSize_of_dir n h]
    rfl
  · rw [FileNode.calculateSize_of_not_dir n h]


/-! ### Well-formed trees -/

theorem FileNode.Good.children {n : FileNode} (h : n.Good) : ∀ c ∈ n.left, FileNode.Good c := by
  cases h with
  | mk name type size left h1 h2 h3 => exact h3

theorem FileNode.Good.names {n : FileNode} (h : n.Good) : (n.left.map FileNode.name).Nodup := by
  cases h with
  | mk name type size left h1 h2 h3 => exact h2

/-- In a well-formed tree only a Directory has children. -/
theorem FileNode.Good.leaf {n : FileNode} (h : n.Good) (ht : n.type ≠ FileType.DIRECTORY) :
    n.left = [] := by
  cases h with
  | mk name type size left h1 h2 h3 => exact (h1 ht).1

/-- In a well-formed tree a node that is not a Directory has the type of its
name. -/
theorem FileNode.Good.type_eq {n : FileNode} (h : n.Good) (ht : n.type ≠ FileType.DIRECTORY) :
    n.type = getFileTypeByExtension n.name := by
  cases h with
  | mk name type size left h1 h2 h3 => exact (h1 ht).2

theorem FileNode.Good.of_deref {root : FileNode} (h : root.Good) (p : Ptr) (n : FileNode)
    (hn : root.deref p = some n) : n.Good := by
  induction p generalizing root with
  | nil =>
    rw [FileNode.deref_nil] at hn
    cases hn
    exact h
  | cons i p ih =>
    rw [FileNode.deref_cons] at hn
    cases hc : root.left[i]? with
    | none => rw [hc] at hn; simp at hn
    | some c =>
      rw [hc] at hn
      exact ih (h.children c (List.mem_iff_getElem?.2 ⟨i, hc⟩)) (by simpa using hn)

theorem FileNode.update_name (root : FileNode) (p : Ptr) (f : FileNode → FileNode)
    (cur : FileNode) (hcur : root.deref p = some cur) (hname : (f cur).name = cur.name) :
    (root.update p f).name = root.name := by
  cases p with
  | nil =>
    rw [FileNode.deref_nil] at hcur
    cases hcur
    rw [FileNode.update_nil, hname]
  | cons i p => rw [FileNode.update_cons]; rfl

/-- A write that puts a well-formed node of the same name in the place of the
node at `p` keeps the tree well formed. -/
theorem FileNode.Good.after_update {root : FileNode} (h : root.Good) (p : Ptr)
    (f : FileNode → FileNode) (cur : FileNode) (hcur : root.deref p = some cur)
    (hgood : (f cur).Good) (hname : (f cur).name = cur.name) : (root.update p f).Good := by
  induction p generalizing root with
  | nil =>
    rw [FileNode.deref_nil] at hcur
    cases hcur
    rw [FileNode.update_nil]
    exact hgood
  | cons i p ih =>
    rw [FileNode.deref_cons] at hcur
    rw [FileNode.update_cons]
    cases hc : root.left[i]? with
    | none => rw [hc] at hcur; simp at hcur
    | some c =>
      rw [hc] at hcur
      have hcur' : c.deref p = some cur := by simpa using hcur
      have hcmem : c ∈ root.left := List.mem_iff_getElem?.2 ⟨i, hc⟩
      have hc' : (c.update p f).Good := ih (h.children c hcmem) hcur'
      have hn' : (c.update p f).name = c.name := FileNode.update_name c p f cur hcur' hname
      rw [List.modify_eq_set_of_getElem? _ _ _ _ hc]
      have hdir : root.type = FileType.DIRECTORY := by
        by_contra hnd
        have := h.leaf hnd
        rw [this] at hc
        simp at hc
      refine FileNode.Good.mk _ _ _ _ (fun hnd => absurd hdir hnd) ?_ ?_
      · rw [List.map_set, hn']
        have : (root.left.map FileNode.name).set i c.name = root.left.map FileNode.name := by
          apply List.ext_getElem?
          intro j
          rw [List.getElem?_set]
          by_cases hij : i = j
          · subst hij
            obtain ⟨hlt, hget⟩ := List.getElem?_eq_some.1 hc
            simp [hlt, hget]
          · simp [hij]
        rw [this]
        exact h.names
      · intro d hd
        rcases List.mem_or_eq_of_mem_set hd with hd | hd
        · exact h.children d hd
        · rw [hd]; exact hc'

theorem FileNode.update_append (p q : Ptr) (root : FileNode) (f : FileNode → FileNode) :
    root.update (p ++ q) f = root.update p (fun d => d.update q f) := by
  induction p generalizing root with
  | nil => rw [List.nil_append, FileNode.update_nil]
  | cons i p ih =>
    rw [List.cons_append, FileNode.update_cons, FileNode.update_cons]
    congr 1
    congr 1
    funext c
    exact ih c

/-- In a well-formed tree `calculateSize` rewrites the children of every node
it is called on. -/
theorem FileNode.Good.calculateSize_left {n : FileNode} (h : n.Good) :
    (n.calculateSize).2.left = n.left.map (fun c => (FileNode.calculateSize c).2) := by
  by_cases ht : n.type = FileType.DIRECTORY
  · rw [FileNode.calculateSize_of_dir n ht]
    rfl
  · rw [FileNode.calculateSize_of_not_dir n ht, h.leaf ht]
    rfl

/-- The tree `calculateSize` leaves behind is well formed again. -/
theorem FileNode.Good.calculateSize_good (n : FileNode) : n.Good → (n.calculateSize).2.Good := by
  refine FileNode.induction_on (P := fun n => n.Good → (n.calculateSize).2.Good) ?_ n
  intro name type size left ih h
  by_cases ht : type = FileType.DIRECTORY
  · rw [FileNode.calculateSize_of_dir (FileNode.mk name type size left) ht]
    simp only [FileNode.name_mk, FileNode.type_mk, FileNode.left_mk]
    refine FileNode.Good.mk _ _ _ _ (fun hnd => absurd ht hnd) ?_ ?_
    · rw [List.map_map]
      have : (FileNode.name ∘ fun c => (FileNode.calculateSize c).2) = FileNode.name := by
        funext c
        exact FileNode.calculateSize_name c
      rw [this]
      exact h.names
    · intro c hc
      obtain ⟨d, hd, rfl⟩ := List.mem_map.1 hc
      exact ih d hd (h.children d hd)
  · rw [FileNode.calculateSize_of_not_dir (FileNode.mk name type size left) ht]
    exact h

/-! ### Every state of the program is well formed -/

theorem FileSystem.Inv.of_init : FileSystem.init.Inv := by
  refine ⟨FileNode.Good.mk _ _ _ _ (fun h => absurd rfl h) (by simp) (by simp), ?_⟩
  exact ⟨_, rfl, rfl⟩

theorem FileSystem.Inv.after_create {fs : FileSystem} (h : fs.Inv) (name : String)
    (isDirectory : Bool) (size : Int) : (fs.create name isDirectory size).2.Inv := by
  obtain ⟨hgood, cur, hcur, hdir⟩ := h
  by_cases hpres : ∃ c ∈ cur.left, c.name = name
  · rw [FileSystem.create_of_present fs name isDirectory size cur hcur hpres]
    exact ⟨hgood, cur, hcur, hdir⟩
  · have habs : ∀ c ∈ cur.left, c.name ≠ name := fun c hc hn => hpres ⟨c, hc, hn⟩
    rw [FileSystem.create_of_absent fs name isDirectory size cur hcur habs]
    have hcg : cur.Good := hgood.of_deref _ _ hcur
    refine ⟨?_, _, FileNode.deref_update_self fs.current fs.root cur _ hcur, hdir⟩
    refine hgood.after_update fs.current _ cur hcur ?_ rfl
    refine FileNode.Good.mk _ _ _ _ (fun hnd => absurd hdir hnd) ?_ ?_
    · rw [List.map_append, List.nodup_append]
      refine ⟨hcg.names, by simp, ?_⟩
      intro a ha hb
      simp only [List.map_cons, List.map_nil, List.mem_singleton, FileNode.name_mk] at hb
      obtain ⟨c, hc, hn⟩ := List.mem_map.1 ha
      exact habs c hc (hn.trans hb)
    · intro c hc
      rcases List.mem_append.1 hc with hc | hc
      · exact hcg.children c hc
      · simp only [List.mem_singleton] at hc
        rw [hc]
        refine FileNode.Good.mk _ _ _ _ ?_ (by simp) (by simp)
        intro hnd
        refine ⟨rfl, ?_⟩
        cases isDirectory with
        | true => simp at hnd
        | false => simp

theorem FileSystem.Inv.after_remove {fs : FileSystem} (h : fs.Inv) (name : String) :
    (fs.remove name).2.Inv := by
  obtain ⟨hgood, cur, hcur, hdir⟩ := h
  by_cases hpres : ∃ c ∈ cur.left, c.name = name
  · obtain ⟨k, c, -, -, -, heq⟩ := FileSystem.remove_of_found fs name cur hcur hpres
    rw [heq]
    have hcg : cur.Good := hgood.of_deref _ _ hcur
    refine ⟨?_, _, FileNode.deref_update_self fs.current fs.root cur _ hcur, hdir⟩
    refine hgood.after_update fs.current _ cur hcur ?_ rfl
    refine FileNode.Good.mk _ _ _ _ (fun hnd => absurd hdir hnd) ?_ ?_
    · exact List.Nodup.sublist ((List.eraseIdx_sublist _ _).map _) hcg.names
    · intro c hc
      exact hcg.children c ((List.eraseIdx_sublist _ _).subset hc)
  · have habs : ∀ c ∈ cur.left, c.name ≠ name := fun c hc hn => hpres ⟨c, hc, hn⟩
    rw [FileSystem.remove_of_absent fs name cur hcur habs]
    exact ⟨hgood, cur, hcur, hdir⟩

theorem FileSystem.Inv.after_rename {fs : FileSystem} (h : fs.Inv) (oldName newName : String) :
    (fs.rename oldName newName).2.Inv := by
  obtain ⟨hgood, cur, hcur, hdir⟩ := h
  by_cases hfail : (∀ c ∈ cur.left, c.name ≠ oldName) ∨ (∃ c ∈ cur.left, c.name = newName)
  · rw [FileSystem.rename_of_fail fs oldName newName cur hcur hfail]
    exact ⟨hgood, cur, hcur, hdir⟩
  · have hold : ∃ c ∈ cur.left, c.name = oldName := by
      by_contra hno
      exact hfail (Or.inl (fun c hc hn => hno ⟨c, hc, hn⟩))
    have hnew : ∀ c ∈ cur.left, c.name ≠ newName :=
      fun c hc hn => hfail (Or.inr ⟨c, hc, hn⟩)
    obtain ⟨k, t, hk, -, -, heq⟩ :=
      FileSystem.rename_of_found fs oldName newName cur hcur hold hnew
    rw [heq]
    have hcg : cur.Good := hgood.of_deref _ _ hcur
    have htg : t.Good := hcg.children t (List.mem_iff_getElem?.2 ⟨k, hk⟩)
    have hfcur : (cur.update [k] (fun t => FileNode.mk newName
          (if !t.isDirectory then getFileTypeByExtension newName else t.type)
          t.size t.left)) =
        FileNode.mk cur.name cur.type cur.size (cur.left.set k (FileNode.mk newName
          (if t.type = FileType.DIRECTORY then FileType.DIRECTORY
           else getFileTypeByExtension newName) t.size t.left)) := by
      rw [FileNode.update_cons]
      simp only [FileNode.update_nil]
      rw [List.modify_eq_set_of_getElem? _ _ _ _ hk, FileSystem.rename_type_eq]
    simp only
    rw [FileNode.update_append]
    refine ⟨?_, _, FileNode.deref_update_self fs.current fs.root cur _ hcur, ?_⟩
    · refine hgood.after_update fs.current _ cur hcur ?_ (by rw [hfcur]; rfl)
      rw [hfcur]
      refine FileNode.Good.mk _ _ _ _ (fun hnd => absurd hdir hnd) ?_ ?_
      · rw [List.map_set]
        refine List.Nodup.set hcg.names ?_
        intro hmem
        obtain ⟨c, hc, hn⟩ := List.mem_map.1 hmem
        exact hnew c hc hn
      · intro d hd
        rcases List.mem_or_eq_of_mem_set hd with hd | hd
        · exact hcg.children d hd
        · rw [hd]
          by_cases htd : t.type = FileType.DIRECTORY
          · rw [if_pos htd]
            exact FileNode.Good.mk _ _ _ _ (fun hnd => absurd rfl hnd) htg.names htg.children
          · rw [if_neg htd, htg.leaf htd]
            exact FileNode.Good.mk _ _ _ _ (fun _ => ⟨rfl, rfl⟩) (by simp) (by simp)
    · rw [hfcur]
      exact hdir

theorem FileSystem.Inv.after_enterDirectory {fs : FileSystem} (h : fs.Inv) (name : String) :
    (fs.enterDirectory name).2.Inv := by
  obtain ⟨hgood, cur, hcur, hdir⟩ := h
  unfold FileSystem.enterDirectory
  rw [FileSystem.findInCurrentDir_eq fs name cur hcur]
  cases hf : FileSystem.findLoop cur.left name 0 with
  | none => exact ⟨hgood, cur, hcur, hdir⟩
  | some r =>
    obtain ⟨k, dir⟩ := r
    obtain ⟨j, hk, hj, -, -⟩ := FileSystem.findLoop_eq_some _ _ _ _ _ hf
    have hkj : k = j := by omega
    subst hkj
    by_cases hd : dir.isDirectory = true
    · simp only [hd, Bool.not_true, Bool.false_eq_true, if_false]
      refine ⟨hgood, dir, ?_, by simpa [FileNode.isDirectory] using hd⟩
      simp only
      rw [FileNode.deref_append, hcur]
      simp [FileNode.deref_cons, hj, FileNode.deref_nil]
    · simp only [hd, Bool.not_false, if_true]
      exact ⟨hgood, cur, hcur, hdir⟩

theorem FileSystem.Inv.after_goUp {fs : FileSystem} (h : fs.Inv) : (fs.goUp).2.Inv := by
  obtain ⟨hgood, cur, hcur, hdir⟩ := h
  unfold FileSystem.goUp
  by_cases hroot : fs.current = []
  · rw [if_pos hroot]
    exact ⟨hgood, cur, hcur, hdir⟩
  · rw [if_neg hroot]
    refine ⟨hgood, ?_⟩
    simp only
    have hsplit := List.dropLast_append_getLast hroot
    rw [← hsplit, FileNode.deref_append] at hcur
    cases hp : fs.root.deref fs.current.dropLast with
    | none => rw [hp] at hcur; simp at hcur
    | some par =>
      rw [hp] at hcur
      refine ⟨par, rfl, ?_⟩
      by_contra hnd
      have hleaf := (hgood.of_deref _ _ hp).leaf hnd
      simp [FileNode.deref_cons, hleaf] at hcur

theorem FileNode.fieldsButDirSize_eq (n : FileNode) :
    n.fieldsButDirSize =
      (fun x : String × FileType × Int × Nat =>
        (x.1, x.2.1, x.2.2.2, if x.2.1 = FileType.DIRECTORY then none else some x.2.2.1))
        n.fields := rfl

/-- Inside the subtree it is called on, `calculateSize` changes nothing but
sizes of Directories. -/
theorem FileNode.Good.calculateSize_deref (n : FileNode) :
    n.Good → ∀ q : Ptr, ((n.calculateSize).2.deref q).map FileNode.fieldsButDirSize =
      (n.deref q).map FileNode.fieldsButDirSize := by
  refine FileNode.induction_on (P := fun n => n.Good → ∀ q : Ptr,
    ((n.calculateSize).2.deref q).map FileNode.fieldsButDirSize =
      (n.deref q).map FileNode.fieldsButDirSize) ?_ n
  intro name type size left ih h q
  cases q with
  | nil =>
    rw [FileNode.deref_nil, FileNode.deref_nil]
    simp only [Option.map_some', Option.some.injEq, FileNode.fieldsButDirSize,
      FileNode.calculateSize_name, FileNode.calculateSize_type, h.calculateSize_left,
      List.length_map]
    by_cases ht : type = FileType.DIRECTORY
    · simp [ht]
    · rw [FileNode.calculateSize_of_not_dir (FileNode.mk name type size left) ht]
  | cons i r =>
    rw [FileNode.deref_cons, FileNode.deref_cons, h.calculateSize_left, List.getElem?_map]
    simp only [FileNode.left_mk]
    cases hc : left[i]? with
    | none => rfl
    | some c =>
      have hcm : c ∈ left := List.mem_iff_getElem?.2 ⟨i, hc⟩
      simpa using ih c hcm (h.children c hcm) r

/-- In the whole tree, `calculateSize` on the node at `p` changes nothing but
sizes of Directories. -/
theorem FileNode.Good.update_calculateSize_deref {root : FileNode} (h : root.Good)
    (p q : Ptr) :
    ((root.update p (fun m => (m.calculateSize).2)).deref q).map FileNode.fieldsButDirSize =
      (root.deref q).map FileNode.fieldsButDirSize := by
  cases hn : root.deref p with
  | none => rw [FileNode.update_of_deref_none p root _ hn]
  | some n =>
    by_cases hpq : p <+: q
    · obtain ⟨r, rfl⟩ := hpq
      rw [FileNode.deref_append, FileNode.deref_append,
        FileNode.deref_update_self p root n _ hn, hn]
      exact (h.of_deref p n hn).calculateSize_deref n r
    · have := FileNode.deref_update_frame p root (fun m => (m.calculateSize).2) q hpq
      have h2 := congrArg (Option.map (fun x : String × FileType × Int × Nat =>
        (x.1, x.2.1, x.2.2.2, if x.2.1 = FileType.DIRECTORY then none else some x.2.2.1))) this
      simpa [Option.map_map, Function.comp_def, FileNode.fieldsButDirSize_eq] using h2

theorem FileSystem.Inv.after_calculateSize {fs : FileSystem} (h : fs.Inv) (node : Ptr) :
    (fs.calculateSize node).2.Inv := by
  obtain ⟨hgood, cur, hcur, hdir⟩ := h
  unfold FileSystem.calculateSize
  cases hn : fs.root.deref node with
  | none => exact ⟨hgood, cur, hcur, hdir⟩
  | some n =>
    simp only
    refine ⟨?_, ?_⟩
    · exact hgood.after_update node _ n hn ((hgood.of_deref _ _ hn).calculateSize_good n)
        (FileNode.calculateSize_name n)
    · have := hgood.update_calculateSize_deref node fs.current
      rw [hcur] at this
      cases hc : (fs.root.update node (fun m => (m.calculateSize).2)).deref fs.current with
      | none => rw [hc] at this; simp at this
      | some cur' =>
        rw [hc] at this
        simp only [Option.map_some', Option.some.injEq, FileNode.fieldsButDirSize,
          Prod.mk.injEq] at this
        exact ⟨cur', rfl, this.2.1.trans hdir⟩

/-- Every state of the program is well formed. -/
theorem FileSystem.Reachable.inv {fs : FileSystem} (h : fs.Reachable) : fs.Inv := by
  induction h with
  | init => exact FileSystem.Inv.of_init
  | create fs name isDirectory size _ ih => exact ih.after_create name isDirectory size
  | remove fs name _ ih => exact ih.after_remove name
  | rename fs oldName newName _ ih => exact ih.after_rename oldName newName
  | enterDirectory fs name _ ih => exact ih.after_enterDirectory name
  | goUp fs _ ih => exact ih.after_goUp
  | calculateSize fs node _ ih => exact ih.after_calculateSize node

/-! ### What `calculateSize` computes -/

/-- After `calculateSize` every Directory of the subtree stores the `int` sum
of the sizes its children store. -/
theorem FileNode.Good.calculateSize_dirs (n : FileNode) :
    n.Good → ∀ (p : Ptr) (m : FileNode), (n.calculateSize).2.deref p = some m →
      m.type = FileType.DIRECTORY → m.size = wrapInt (m.left.map FileNode.size).sum := by
  refine FileNode.induction_on (P := fun n => n.Good → ∀ (p : Ptr) (m : FileNode),
    (n.calculateSize).2.deref p = some m →
      m.type = FileType.DIRECTORY → m.size = wrapInt (m.left.map FileNode.size).sum) ?_ n
  intro name type size left ih h p m hm hdir
  cases p with
  | nil =>
    rw [FileNode.deref_nil] at hm
    cases hm
    rw [FileNode.calculateSize_type] at hdir
    rw [FileNode.calculateSize_of_dir _ hdir]
    simp only [FileNode.size_mk, FileNode.left_mk, List.map_map]
    congr 2
    apply List.map_congr_left
    intro c _
    exact (FileNode.calculateSize_size c).symm
  | cons i r =>
    rw [FileNode.deref_cons, h.calculateSize_left, List.getElem?_map] at hm
    simp only [FileNode.left_mk] at hm
    cases hc : left[i]? with
    | none => rw [hc] at hm; simp at hm
    | some c =>
      rw [hc] at hm
      have hcm : c ∈ left := List.mem_iff_getElem?.2 ⟨i, hc⟩
      exact ih c hcm (h.children c hcm) r m (by simpa using hm) hdir

/-- C6, counterexample: after `touch big.txt 2147483647`, `touch one.txt 1`
and `calculateSize(root)` the root, a Directory, stores -2147483648, while
the sizes its two children store sum to 2147483648. -/
theorem FileSystem.calculateSize_root_counterexample :
    (FileSystem.overflowScenario.calculateSize []).2.root =
      FileNode.mk "root" FileType.DIRECTORY (-2147483648)
        [FileNode.mk "big.txt" FileType.TEXT 2147483647 [],
         FileNode.mk "one.txt" FileType.TEXT 1 []] ∧
    ([FileNode.mk "big.txt" FileType.TEXT 2147483647 [],
      FileNode.mk "one.txt" FileType.TEXT 1 []].map FileNode.size).sum = 2147483648 ∧
    (-2147483648 : Int) ≠ 2147483648 :=
  ⟨rfl, by decide, by decide⟩

/-- C6, amended: in every state of the program, after `calculateSize(root)`
every Directory node of the tree stores as its size the sum of the sizes its
immediate children store then, computed in `int` arithmetic: the sum reduced
modulo `2^32` into the range of `int` (0 without children).  It stores the
exact sum whenever that sum lies in the range of `int`. -/
theorem FileSystem.calculateSize_root_spec (fs : FileSystem) (h : fs.Reachable)
    (p : Ptr) (n : FileNode)
    (hn : (fs.calculateSize []).2.root.deref p = some n)
    (hdir : n.type = FileType.DIRECTORY) :
    n.size = wrapInt (n.left.map FileNode.size).sum ∧
    (-2147483648 ≤ (n.left.map FileNode.size).sum →
      (n.left.map FileNode.size).sum < 2147483648 →
      n.size = (n.left.map FileNode.size).sum) := by
  have hroot : (fs.calculateSize []).2.root = (fs.root.calculateSize).2 := by
    unfold FileSystem.calculateSize
    rw [FileNode.deref_nil]
    simp only
    rw [FileNode.update_nil]
  rw [hroot] at hn
  have hsize := h.inv.1.calculateSize_dirs fs.root p n hn hdir
  refine ⟨hsize, fun h1 h2 => ?_⟩
  rw [hsize, wrapInt_of_range _ h1 h2]

/-- Witness for C6, amended: the directory `docs` of the scenario after
`calculateSize(root)`. -/
theorem FileSystem.calculateSize_root_spec_witness :
    (30 : Int) = ([FileNode.mk "a.txt" FileType.TEXT 10 [],
      FileNode.mk "b.jpg" FileType.IMAGE 20 []].map FileNode.size).sum :=
  (FileSystem.calculateSize_root_spec FileSystem.scenario
    (FileSystem.Reachable.goUp _ (FileSystem.Reachable.create _ "b.jpg" false 20
      (FileSystem.Reachable.create _ "a.txt" false 10
        (FileSystem.Reachable.enterDirectory _ "docs"
          (FileSystem.Reachable.create _ "docs" true 0 FileSystem.Reachable.init)))))
    [0]
    (FileNode.mk "docs" FileType.DIRECTORY 30
      [FileNode.mk "a.txt" FileType.TEXT 10 [], FileNode.mk "b.jpg" FileType.IMAGE 20 []])
    rfl rfl).2 (by decide) (by decide)

/-- A write that stores the node that is already there changes nothing. -/
theorem FileNode.update_of_fixed (p : Ptr) (root n : FileNode) (f : FileNode → FileNode)
    (hn : root.deref p = some n) (hf : f n = n) : root.update p f = root := by
  induction p generalizing root with
  | nil =>
    rw [FileNode.deref_nil] at hn
    cases hn
    rw [FileNode.update_nil, hf]
  | cons i p ih =>
    rw [FileNode.deref_cons] at hn
    rw [FileNode.update_cons]
    cases hc : root.left[i]? with
    | none => rw [hc] at hn; simp at hn
    | some c =>
      rw [hc] at hn
      rw [List.modify_eq_set_of_getElem? _ _ _ _ hc, ih c (by simpa using hn)]
      have : root.left.set i c = root.left := by
        apply List.ext_getElem?
        intro j
        rw [List.getElem?_set]
        by_cases hij : i = j
        · subst hij
          obtain ⟨hlt, hget⟩ := List.getElem?_eq_some.1 hc
          simp [hlt, hget]
        · simp [hij]
      rw [this, FileNode.mk_eta]

/-- The sizes of the nodes that are not Directories, summed over a listing,
do not depend on the addresses in the listing. -/
theorem FileNode.fileSizes_nodes (n : FileNode) (p : Ptr) :
    (((n.nodes p).filter (fun x => decide (x.2.type ≠ FileType.DIRECTORY))).map
      (fun x => x.2.size)).sum = n.fileSizes := by
  rw [FileNode.nodes_prefix n p, FileNode.fileSizes]
  congr 1
  induction n.nodes [] with
  | nil => rfl
  | cons x L ih =>
    by_cases hx : x.2.type = FileType.DIRECTORY
    · simpa [List.filter_cons, hx] using ih
    · simpa [List.filter_cons, hx] using ih

theorem FileNode.fileSizes_nodesLoop (cs : List FileNode) (p : Ptr) (i : Nat) :
    (((FileNode.nodesLoop cs p i).filter
      (fun x => decide (x.2.type ≠ FileType.DIRECTORY))).map (fun x => x.2.size)).sum =
      (cs.map FileNode.fileSizes).sum := by
  induction cs generalizing i with
  | nil => simp [FileNode.nodesLoop]
  | cons c cs ih =>
    rw [FileNode.nodesLoop, List.filter_append, List.map_append, List.sum_append,
      FileNode.fileSizes_nodes, ih]
    simp

/-- The files below a Directory are the files below its children. -/
theorem FileNode.fileSizes_of_dir (name : String) (type : FileType) (size : Int)
    (left : List FileNode) (ht : type = FileType.DIRECTORY) :
    (FileNode.mk name type size left).fileSizes = (left.map FileNode.fileSizes).sum := by
  rw [FileNode.fileSizes, FileNode.nodes, List.filter_cons]
  simp only [FileNode.type_mk, ht, ne_eq, not_true_eq_false, decide_False,
    Bool.false_eq_true, if_false]
  exact FileNode.fileSizes_nodesLoop left [] 0

theorem FileNode.fileSizes_of_leaf (name : String) (type : FileType) (size : Int)
    (ht : type ≠ FileType.DIRECTORY) :
    (FileNode.mk name type size []).fileSizes = size := by
  simp [FileNode.fileSizes, FileNode.nodes, FileNode.nodesLoop, List.filter_cons, ht]

/-- In a well-formed tree `calculateSize` returns, for a node that is not a
Directory, its size, and for a Directory the `int` sum of the sizes of the
nodes of the subtree that are not Directories. -/
theorem FileNode.Good.calculateSize_fst (n : FileNode) :
    n.Good → wrapInt (n.calculateSize).1 = wrapInt n.fileSizes ∧
      (n.type = FileType.DIRECTORY → (n.calculateSize).1 = wrapInt n.fileSizes) ∧
      (n.type ≠ FileType.DIRECTORY → (n.calculateSize).1 = n.fileSizes) := by
  refine FileNode.induction_on (P := fun n =>
    n.Good → wrapInt (n.calculateSize).1 = wrapInt n.fileSizes ∧
      (n.type = FileType.DIRECTORY → (n.calculateSize).1 = wrapInt n.fileSizes) ∧
      (n.type ≠ FileType.DIRECTORY → (n.calculateSize).1 = n.fileSizes)) ?_ n
  intro name type size left ih h
  by_cases ht : type = FileType.DIRECTORY
  · have hdir : (FileNode.calculateSize (FileNode.mk name type size left)).1 =
        wrapInt (FileNode.mk name type size left).fileSizes := by
      rw [FileNode.calculateSize_of_dir (FileNode.mk name type size left) ht,
        FileNode.fileSizes_of_dir name type size left ht]
      simp only [FileNode.left_mk]
      exact wrapInt_sum_congr left _ _ (fun c hc => (ih c hc (h.children c hc)).1)
    refine ⟨?_, fun _ => hdir, fun hnd => absurd ht hnd⟩
    rw [hdir, wrapInt_wrapInt]
  · have hl : left = [] := h.leaf ht
    subst hl
    have hleaf : (FileNode.calculateSize (FileNode.mk name type size [])).1 =
        (FileNode.mk name type size []).fileSizes := by
      rw [FileNode.calculateSize_of_not_dir (FileNode.mk name type size []) ht,
        FileNode.fileSizes_of_leaf name type size ht]
      rfl
    exact ⟨by rw [hleaf], fun hd => absurd hd ht, fun _ => hleaf⟩

/-- C7, counterexample: after `touch big.txt 2147483647`, `touch one.txt 1`
the sizes of the nodes below the root that are not Directories sum to
2147483648, while `calculateSize(root)` returns -2147483648 and stores it in
the root. -/
theorem FileSystem.calculateSize_counterexample :
    FileSystem.overflowScenario.root.fileSizes = 2147483648 ∧
    (FileSystem.overflowScenario.calculateSize []).1 = -2147483648 ∧
    ((FileSystem.overflowScenario.calculateSize []).2.root.deref []).map FileNode.size =
      some (-2147483648) ∧
    (-2147483648 : Int) ≠ 2147483648 :=
  ⟨by decide, by decide, by decide, by decide⟩

/-- C7, amended: in every state of the program and for every node `n` of the
tree, at the address `p`: when `n` is not a Directory, `calculateSize` returns
the size `n` stores and leaves the state as it is; when `n` is a Directory, it
returns the sum of the sizes stored in the nodes of the subtree of `n` that
are not Directories, computed in `int` arithmetic (the sum reduced modulo
`2^32` into the range of `int`), and `n` stores that value afterwards; this is
the exact sum whenever the sum lies in the range of `int`.  In both cases the
cursor is unchanged, every node keeps its name, its type, its number of
children and, unless it is a Directory, its size, and every node that is not
at or below `n` keeps its size as well.  In the scenario, `docs` stores 30
after `calculateSize(root)`. -/
theorem FileSystem.calculateSize_spec (fs : FileSystem) (h : fs.Reachable)
    (p : Ptr) (n : FileNode) (hn : fs.root.deref p = some n) :
    (n.type ≠ FileType.DIRECTORY → fs.calculateSize p = (n.size, fs)) ∧
    (n.type = FileType.DIRECTORY →
      (fs.calculateSize p).1 = wrapInt n.fileSizes ∧
      ((fs.calculateSize p).2.root.deref p).map FileNode.size = some (wrapInt n.fileSizes) ∧
      (-2147483648 ≤ n.fileSizes → n.fileSizes < 2147483648 →
        (fs.calculateSize p).1 = n.fileSizes ∧
        ((fs.calculateSize p).2.root.deref p).map FileNode.size = some n.fileSizes)) ∧
    (fs.calculateSize p).2.current = fs.current ∧
    (∀ q : Ptr, ((fs.calculateSize p).2.root.deref q).map FileNode.fieldsButDirSize =
      (fs.root.deref q).map FileNode.fieldsButDirSize) ∧
    (∀ q : Ptr, ¬ p <+: q →
      ((fs.calculateSize p).2.root.deref q).map FileNode.fields =
        (fs.root.deref q).map FileNode.fields) ∧
    ((FileSystem.scenario.calculateSize []).2.root.deref [0]).map FileNode.fields =
      some ("docs", FileType.DIRECTORY, 30, 2) := by
  have hgood := h.inv.1
  have hng : n.Good := hgood.of_deref p n hn
  have heq : fs.calculateSize p =
      ((n.calculateSize).1,
        { fs with root := fs.root.update p (fun m => (m.calculateSize).2) }) := by
    unfold FileSystem.calculateSize
    rw [hn]
  refine ⟨?_, ?_, ?_, ?_, ?_, rfl⟩
  · intro ht
    rw [heq, FileNode.calculateSize_of_not_dir n ht,
      FileNode.update_of_fixed p fs.root n _ hn
        (by rw [FileNode.calculateSize_of_not_dir n ht])]
  · intro hd
    rw [heq]
    have hval : (n.calculateSize).1 = wrapInt n.fileSizes := (hng.calculateSize_fst n).2.1 hd
    have hstored : ((fs.root.update p (fun m => (m.calculateSize).2)).deref p).map
        FileNode.size = some (wrapInt n.fileSizes) := by
      rw [FileNode.deref_update_self p fs.root n _ hn]
      simp only [Option.map_some', Option.some.injEq]
      rw [FileNode.calculateSize_size, hval]
    refine ⟨hval, hstored, fun h1 h2 => ?_⟩
    simp only at hstored ⊢
    rw [hval, hstored, wrapInt_of_range _ h1 h2]
    exact ⟨rfl, rfl⟩
  · rw [heq]
  · intro q
    rw [heq]
    exact hgood.update_calculateSize_deref p q
  · intro q hq
    rw [heq]
    exact FileNode.deref_update_frame _ _ _ q hq

/-- Witness for C7, amended: `calculateSize` on the root of the scenario. -/
theorem FileSystem.calculateSize_spec_witness :
    (FileSystem.scenario.calculateSize []).1 =
      (FileNode.mk "root" FileType.DIRECTORY 0
        [FileNode.mk "docs" FileType.DIRECTORY 0
          [FileNode.mk "a.txt" FileType.TEXT 10 [],
           FileNode.mk "b.jpg" FileType.IMAGE 20 []]]).fileSizes :=
  (((FileSystem.calculateSize_spec FileSystem.scenario
    (FileSystem.Reachable.goUp _ (FileSystem.Reachable.create _ "b.jpg" false 20
      (FileSystem.Reachable.create _ "a.txt" false 10
        (FileSystem.Reachable.enterDirectory _ "docs"
          (FileSystem.Reachable.create _ "docs" true 0 FileSystem.Reachable.init)))))
    []
    (FileNode.mk "root" FileType.DIRECTORY 0
      [FileNode.mk "docs" FileType.DIRECTORY 0
        [FileNode.mk "a.txt" FileType.TEXT 10 [],
         FileNode.mk "b.jpg" FileType.IMAGE 20 []]])
    rfl).2.1 rfl).2.2 (by decide) (by decide)).1

/-! ### `rename` there and back -/

/-- The classifier answers Directory exactly for the names without `'.'`. -/
theorem getFileTypeByExtension_eq_directory (name : String) :
    getFileTypeByExtension name = FileType.DIRECTORY ↔ '.' ∉ name.data := by
  constructor
  · intro h hmem
    obtain ⟨pre, ext, hsplit, hext⟩ := exists_split_at_last name.data '.' hmem
    rw [getFileTypeByExtension_of_split name pre ext hsplit hext] at h
    simp only at h
    split_ifs at h
  · intro h
    unfold getFileTypeByExtension
    rw [if_pos (strFind_eq_none.2 h)]

theorem FileNode.update_update (p : Ptr) (root : FileNode) (f g : FileNode → FileNode) :
    (root.update p f).update p g = root.update p (g ∘ f) := by
  induction p generalizing root with
  | nil => simp [FileNode.update_nil]
  | cons i p ih =>
    rw [FileNode.update_cons, FileNode.update_cons, FileNode.update_cons]
    simp only [FileNode.name_mk, FileNode.type_mk, FileNode.size_mk, FileNode.left_mk]
    rw [List.modify_modify_eq]
    congr 2
    funext c
    exact ih c

/-- In a well-formed tree two different entries of one chain carry different
names. -/
theorem FileNode.Good.name_ne {cur : FileNode} (h : cur.Good) (j k : Nat) (c t : FileNode)
    (hj : cur.left[j]? = some c) (hk : cur.left[k]? = some t) (hne : j ≠ k) :
    c.name ≠ t.name := by
  have hnd := List.nodup_iff_getElem?_ne_getElem?.1 h.names
  have hj' : (cur.left.map FileNode.name)[j]? = some c.name := by
    rw [List.getElem?_map, hj]; rfl
  have hk' : (cur.left.map FileNode.name)[k]? = some t.name := by
    rw [List.getElem?_map, hk]; rfl
  obtain ⟨hjl, -⟩ := List.getElem?_eq_some.1 hj'
  obtain ⟨hkl, -⟩ := List.getElem?_eq_some.1 hk'
  intro heq
  rcases Nat.lt_or_gt_of_ne hne with hlt | hgt
  · have := hnd j k hlt hkl
    rw [hj', hk', heq] at this
    exact this rfl
  · have := hnd k j hgt hjl
    rw [hj', hk', heq] at this
    exact this rfl

theorem List.mem_set_cases {α : Type} (l : List α) (k : Nat) (x c : α) (h : c ∈ l.set k x) :
    c = x ∨ ∃ j, j ≠ k ∧ l[j]? = some c := by
  obtain ⟨j, hj⟩ := List.mem_iff_getElem?.1 h
  rw [List.getElem?_set] at hj
  by_cases hkj : k = j
  · rw [if_pos hkj] at hj
    left
    split_ifs at hj
    cases hj
    rfl
  · rw [if_neg hkj] at hj
    exact Or.inr ⟨j, fun e => hkj e.symm, hj⟩

/-- What two renames in a row, to `b` and back to `a`, make of a node named
`a` that is a Directory or carries the type of its name. -/
theorem FileSystem.rename_twice_node (t : FileNode) (a b : String) (hn : t.name = a)
    (ht : t.type ≠ FileType.DIRECTORY → t.type = getFileTypeByExtension t.name) :
    ((fun t : FileNode => FileNode.mk a
        (if !t.isDirectory then getFileTypeByExtension a else t.type) t.size t.left) ∘
      (fun t : FileNode => FileNode.mk b
        (if !t.isDirectory then getFileTypeByExtension b else t.type) t.size t.left)) t =
      FileNode.mk a (if '.' ∈ b.data then t.type else FileType.DIRECTORY) t.size t.left := by
  simp only [Function.comp_apply, FileSystem.rename_type_eq, FileNode.type_mk,
    FileNode.size_mk, FileNode.left_mk]
  congr 1
  by_cases hd : t.type = FileType.DIRECTORY
  · simp [hd]
  · by_cases hb : '.' ∈ b.data
    · have hnb : getFileTypeByExtension b ≠ FileType.DIRECTORY := fun e =>
        (getFileTypeByExtension_eq_directory b).1 e hb
      rw [if_neg hd, if_neg hnb, if_pos hb, ht hd, hn]
    · have hbd : getFileTypeByExtension b = FileType.DIRECTORY :=
        (getFileTypeByExtension_eq_directory b).2 hb
      rw [if_neg hd, if_pos hbd, if_neg hb]

/-- C10, counterexample: on a fresh file system `touch a.txt 1` gives a
current directory with the one child `a.txt` of type Text and no child `b`;
`rename a.txt b` and `rename b a.txt` both succeed, and the child ends with
its name `a.txt` but with the type Directory instead of Text. -/
theorem FileSystem.rename_roundtrip_counterexample :
    (FileSystem.init.create "a.txt" false 1).2 =
      FileSystem.mk (FileNode.mk "root" FileType.DIRECTORY 0
        [FileNode.mk "a.txt" FileType.TEXT 1 []]) [] ∧
    ((FileSystem.init.create "a.txt" false 1).2.rename "a.txt" "b").1 = true ∧
    (((FileSystem.init.create "a.txt" false 1).2.rename "a.txt" "b").2.rename
      "b" "a.txt").1 = true ∧
    (((FileSystem.init.create "a.txt" false 1).2.rename "a.txt" "b").2.rename
      "b" "a.txt").2 =
      FileSystem.mk (FileNode.mk "root" FileType.DIRECTORY 0
        [FileNode.mk "a.txt" FileType.DIRECTORY 1 []]) [] ∧
    FileType.DIRECTORY ≠ FileType.TEXT :=
  ⟨rfl, rfl, rfl, rfl, by decide⟩

/-- C10, amended: in every state of the program in which the current
directory `cur` has a child named `a` and no child named `b`, `rename a b`
followed by `rename b a` both succeed and leave the cursor where it was and
the tree as it was except for the type of that child `t`, which keeps its
name `a`, its size, its children and its place: its type is the original one
when `b` contains a `'.'` and Directory when `b` contains none.  So the state
is the original one whenever the child was a Directory or `b` contains a
`'.'`. -/
theorem FileSystem.rename_roundtrip (fs : FileSystem) (h : fs.Reachable) (a b : String)
    (cur : FileNode) (hcur : fs.root.deref fs.current = some cur)
    (ha : ∃ c ∈ cur.left, c.name = a) (hb : ∀ c ∈ cur.left, c.name ≠ b) :
    ∃ k t, cur.left[k]? = some t ∧ t.name = a ∧
      (fs.rename a b).1 = true ∧
      ((fs.rename a b).2.rename b a).1 = true ∧
      ((fs.rename a b).2.rename b a).2.current = fs.current ∧
      ((fs.rename a b).2.rename b a).2.root.deref fs.current =
        some (FileNode.mk cur.name cur.type cur.size
          (cur.left.set k (FileNode.mk a
            (if '.' ∈ b.data then t.type else FileType.DIRECTORY) t.size t.left))) ∧
      (∀ q : Ptr, ¬ fs.current <+: q →
        (((fs.rename a b).2.rename b a).2.root.deref q).map FileNode.fields =
          (fs.root.deref q).map FileNode.fields) ∧
      ((t.type = FileType.DIRECTORY ∨ '.' ∈ b.data) →
        ((fs.rename a b).2.rename b a).2 = fs) := by
  have hgood := h.inv.1
  have hcg : cur.Good := hgood.of_deref _ _ hcur
  obtain ⟨k, t, hk, hn, -, heq1⟩ := FileSystem.rename_of_found fs a b cur hcur ha hb
  have htg : t.Good := hcg.children t (List.mem_iff_getElem?.2 ⟨k, hk⟩)
  obtain ⟨hklt, -⟩ := List.getElem?_eq_some.1 hk
  have hab : a ≠ b := by
    intro e
    exact hb t (List.mem_iff_getElem?.2 ⟨k, hk⟩) (hn.trans e)
  -- the state after the first rename
  have hcur1 : (fs.rename a b).2.root.deref (fs.rename a b).2.current =
      some (FileNode.mk cur.name cur.type cur.size (cur.left.set k (FileNode.mk b
        (if !t.isDirectory then getFileTypeByExtension b else t.type) t.size t.left))) := by
    rw [heq1]
    simp only
    rw [FileNode.deref_update_append fs.current [k] fs.root cur _ hcur, FileNode.update_cons]
    simp only [FileNode.update_nil]
    rw [List.modify_eq_set_of_getElem? _ _ _ _ hk]
  have ha1 : ∃ c ∈ (FileNode.mk cur.name cur.type cur.size (cur.left.set k (FileNode.mk b
        (if !t.isDirectory then getFileTypeByExtension b else t.type)
        t.size t.left))).left, c.name = b := by
    refine ⟨FileNode.mk b (if !t.isDirectory then getFileTypeByExtension b else t.type)
      t.size t.left, List.mem_iff_getElem?.2 ⟨k, ?_⟩, rfl⟩
    simp [List.getElem?_set, hklt]
  have hb1 : ∀ c ∈ (FileNode.mk cur.name cur.type cur.size (cur.left.set k (FileNode.mk b
        (if !t.isDirectory then getFileTypeByExtension b else t.type)
        t.size t.left))).left, c.name ≠ a := by
    intro c hc
    rcases List.mem_set_cases _ _ _ _ hc with hc | ⟨j, hjk, hj⟩
    · rw [hc]
      exact fun e => hab e.symm
    · rw [← hn]
      exact hcg.name_ne j k c t hj hk hjk
  obtain ⟨k2, t2, hk2, hn2, -, heq2⟩ :=
    FileSystem.rename_of_found (fs.rename a b).2 b a _ hcur1 ha1 hb1
  have hk2k : k2 = k := by
    by_contra hne
    simp only [FileNode.left_mk] at hk2
    rw [List.getElem?_set, if_neg (fun e => hne e.symm)] at hk2
    exact hb t2 (List.mem_iff_getElem?.2 ⟨k2, hk2⟩) hn2
  subst hk2k
  have hroot : ((fs.rename a b).2.rename b a).2.root =
      fs.root.update (fs.current ++ [k2])
        ((fun t : FileNode => FileNode.mk a
          (if !t.isDirectory then getFileTypeByExtension a else t.type) t.size t.left) ∘
        (fun t : FileNode => FileNode.mk b
          (if !t.isDirectory then getFileTypeByExtension b else t.type) t.size t.left)) := by
    rw [heq2]
    simp only
    rw [heq1]
    simp only
    rw [FileNode.update_update]
  have hcurr : ((fs.rename a b).2.rename b a).2.current = fs.current := by
    rw [heq2]
    simp only
    rw [heq1]
  have hnode := FileSystem.rename_twice_node t a b hn (fun hd => htg.type_eq hd)
  refine ⟨k2, t, hk, hn, by rw [heq1], by rw [heq2], hcurr, ?_, ?_, ?_⟩
  · rw [hroot, FileNode.deref_update_append fs.current [k2] fs.root cur _ hcur,
      FileNode.update_cons]
    simp only [FileNode.update_nil]
    rw [List.modify_eq_set_of_getElem? _ _ _ _ hk, hnode]
  · intro q hq
    rw [hroot]
    apply FileNode.deref_update_frame
    intro hp
    exact hq (List.IsPrefix.trans (List.prefix_append _ _) hp)
  · intro hcase
    have hfix : ((fun t : FileNode => FileNode.mk a
          (if !t.isDirectory then getFileTypeByExtension a else t.type) t.size t.left) ∘
        (fun t : FileNode => FileNode.mk b
          (if !t.isDirectory then getFileTypeByExtension b else t.type) t.size t.left)) t =
        t := by
      rw [hnode]
      have : (if '.' ∈ b.data then t.type else FileType.DIRECTORY) = t.type := by
        rcases hcase with hd | hd
        · rw [hd]; simp
        · rw [if_pos hd]
      rw [this, ← hn, FileNode.mk_eta]
    have hderef : fs.root.deref (fs.current ++ [k2]) = some t := by
      rw [FileNode.deref_append, hcur]
      simp [FileNode.deref_cons, hk, FileNode.deref_nil]
    have hr := FileNode.update_of_fixed (fs.current ++ [k2]) fs.root t _ hderef hfix
    rw [hr] at hroot
    cases hfs : ((fs.rename a b).2.rename b a).2 with
    | mk r c =>
      rw [hfs] at hroot hcurr
      simp only at hroot hcurr
      rw [hroot, hcurr]

/-- Witness for C10, amended: `rename a.txt b.jpg` and back in a directory
that holds only `a.txt`. -/
theorem FileSystem.rename_roundtrip_witness :
    ∃ (k : Nat) (t : FileNode),
      [FileNode.mk "a.txt" FileType.TEXT 1 []][k]? = some t ∧ t.name = "a.txt" ∧
      ((t.type = FileType.DIRECTORY ∨ '.' ∈ "b.jpg".data) →
        (((FileSystem.init.create "a.txt" false 1).2.rename "a.txt" "b.jpg").2.rename
          "b.jpg" "a.txt").2 = (FileSystem.init.create "a.txt" false 1).2) := by
  obtain ⟨k, t, h1, h2, -, -, -, -, -, h3⟩ :=
    FileSystem.rename_roundtrip (FileSystem.init.create "a.txt" false 1).2
      (FileSystem.Reachable.create _ "a.txt" false 1 FileSystem.Reachable.init)
      "a.txt" "b.jpg"
      (FileNode.mk "root" FileType.DIRECTORY 0 [FileNode.mk "a.txt" FileType.TEXT 1 []])
      rfl ⟨FileNode.mk "a.txt" FileType.TEXT 1 [], by simp, rfl⟩
      (by intro c hc; simp at hc; rw [hc]; decide)
  exact ⟨k, t, h1, h2, h3⟩

/-! ### Which nodes are Directories -/

/-- A write that keeps the children of the node at `p` changes nothing below
`p`. -/
theorem FileNode.deref_update_below (p : Ptr) (root d : FileNode) (f : FileNode → FileNode)
    (hd : root.deref p = some d) (hleft : (f d).left = d.left) (r : Ptr) (hr : r ≠ []) :
    (root.update p f).deref (p ++ r) = root.deref (p ++ r) := by
  rw [FileNode.deref_append, FileNode.deref_append, FileNode.deref_update_self p root d f hd,
    hd]
  cases r with
  | nil => exact absurd rfl hr
  | cons j r =>
    simp only [Option.some_bind]
    rw [FileNode.deref_cons, FileNode.deref_cons, hleft]

/-- A write that keeps the children of the node at `p` leaves the type of
every other node as it was. -/
theorem FileNode.deref_update_type (p : Ptr) (root d : FileNode) (f : FileNode → FileNode)
    (hd : root.deref p = some d) (hleft : (f d).left = d.left) (q : Ptr) (hq : q ≠ p) :
    ((root.update p f).deref q).map FileNode.type = (root.deref q).map FileNode.type := by
  by_cases hpq : p <+: q
  · obtain ⟨r, rfl⟩ := hpq
    have hr : r ≠ [] := by
      intro e
      exact hq (by rw [e, List.append_nil])
    rw [FileNode.deref_update_below p root d f hd hleft r hr]
  · have := FileNode.deref_update_frame p root f q hpq
    have h2 := congrArg (Option.map (fun x : String × FileType × Int × Nat => x.2.1)) this
    simpa [Option.map_map, Function.comp_def, FileNode.fields] using h2

/-- C9, counterexample: on a fresh file system `create("readme", false, 5)`
succeeds and the node it creates, with `isDirectory = false`, has the type
Directory; and after `touch a.txt 1` the rename of `a.txt` to `b` turns a
node of type Text into a Directory. -/
theorem FileSystem.directory_category_counterexample :
    (FileSystem.init.create "readme" false 5).1 = true ∧
    (FileSystem.init.create "readme" false 5).2.root =
      FileNode.mk "root" FileType.DIRECTORY 0
        [FileNode.mk "readme" FileType.DIRECTORY 5 []] ∧
    (FileSystem.init.create "a.txt" false 1).2.root =
      FileNode.mk "root" FileType.DIRECTORY 0 [FileNode.mk "a.txt" FileType.TEXT 1 []] ∧
    ((FileSystem.init.create "a.txt" false 1).2.rename "a.txt" "b").1 = true ∧
    ((FileSystem.init.create "a.txt" false 1).2.rename "a.txt" "b").2.root =
      FileNode.mk "root" FileType.DIRECTORY 0 [FileNode.mk "b" FileType.DIRECTORY 1 []] :=
  ⟨rfl, rfl, rfl, rfl, rfl⟩

/-- C9, amended: in every state of the program the root is a Directory and
every node is a Directory or has a name with a `'.'` and the type of that
name.  A successful `create` gives the new node, the last child of the
current directory, the type Directory exactly when `isDirectory` is true or
the name contains no `'.'`.  A successful `rename` leaves its target a
Directory when it was one, makes a target that was not a Directory one
exactly when the new name contains no `'.'`, and leaves the type of every
other node as it was. -/
theorem FileSystem.directory_category (fs : FileSystem) (h : fs.Reachable) :
    fs.root.type = FileType.DIRECTORY ∧
    (∀ (p : Ptr) (n : FileNode), fs.root.deref p = some n →
      n.type = FileType.DIRECTORY ∨
        ('.' ∈ n.name.data ∧ n.type = getFileTypeByExtension n.name)) ∧
    (∀ (name : String) (isDirectory : Bool) (size : Int),
      (fs.create name isDirectory size).1 = true →
      ∃ cur new, fs.root.deref fs.current = some cur ∧
        (fs.create name isDirectory size).2.root.deref (fs.current ++ [cur.left.length]) =
          some new ∧
        new.name = name ∧
        (new.type = FileType.DIRECTORY ↔ (isDirectory = true ∨ '.' ∉ name.data))) ∧
    (∀ (oldName newName : String), (fs.rename oldName newName).1 = true →
      ∃ cur k t t', fs.root.deref fs.current = some cur ∧
        cur.left[k]? = some t ∧ t.name = oldName ∧
        (fs.rename oldName newName).2.root.deref (fs.current ++ [k]) = some t' ∧
        t'.name = newName ∧
        (t.type = FileType.DIRECTORY → t'.type = FileType.DIRECTORY) ∧
        (t.type ≠ FileType.DIRECTORY →
          (t'.type = FileType.DIRECTORY ↔ '.' ∉ newName.data)) ∧
        (∀ q : Ptr, q ≠ fs.current ++ [k] →
          ((fs.rename oldName newName).2.root.deref q).map FileNode.type =
            (fs.root.deref q).map FileNode.type)) := by
  obtain ⟨hgood, cur, hcur, hdir⟩ := h.inv
  refine ⟨?_, ?_, ?_, ?_⟩
  · by_contra hnd
    have hleaf := hgood.leaf hnd
    cases hc : fs.current with
    | nil =>
      rw [hc, FileNode.deref_nil] at hcur
      cases hcur
      exact hnd hdir
    | cons i p =>
      rw [hc, FileNode.deref_cons, hleaf] at hcur
      simp at hcur
  · intro p n hn
    have hng := hgood.of_deref p n hn
    by_cases hd : n.type = FileType.DIRECTORY
    · exact Or.inl hd
    · right
      have ht := hng.type_eq hd
      refine ⟨?_, ht⟩
      by_contra hdot
      exact hd (ht.trans ((getFileTypeByExtension_eq_directory n.name).2 hdot))
  · intro name isDirectory size hs
    have habs : ∀ c ∈ cur.left, c.name ≠ name := by
      intro c hc hn
      rw [FileSystem.create_of_present fs name isDirectory size cur hcur ⟨c, hc, hn⟩] at hs
      cases hs
    rw [FileSystem.create_of_absent fs name isDirectory size cur hcur habs]
    refine ⟨cur, FileNode.mk name
      (if isDirectory then FileType.DIRECTORY else getFileTypeByExtension name) size [],
      hcur, ?_, rfl, ?_⟩
    · simp only
      rw [FileNode.deref_append, FileNode.deref_update_self fs.current fs.root cur _ hcur]
      simp [FileNode.deref_cons, FileNode.deref_nil]
    · cases isDirectory with
      | true => simp
      | false => simpa using getFileTypeByExtension_eq_directory name
  · intro oldName newName hs
    have hnf : ¬ ((∀ c ∈ cur.left, c.name ≠ oldName) ∨ (∃ c ∈ cur.left, c.name = newName)) := by
      intro hf
      rw [FileSystem.rename_of_fail fs oldName newName cur hcur hf] at hs
      cases hs
    have hold : ∃ c ∈ cur.left, c.name = oldName := by
      by_contra hno
      exact hnf (Or.inl (fun c hc hn => hno ⟨c, hc, hn⟩))
    have hnew : ∀ c ∈ cur.left, c.name ≠ newName :=
      fun c hc hn => hnf (Or.inr ⟨c, hc, hn⟩)
    obtain ⟨k, t, hk, hn, -, heq⟩ :=
      FileSystem.rename_of_found fs oldName newName cur hcur hold hnew
    have hderef : fs.root.deref (fs.current ++ [k]) = some t := by
      rw [FileNode.deref_append, hcur]
      simp [FileNode.deref_cons, hk, FileNode.deref_nil]
    rw [heq]
    refine ⟨cur, k, t, _, hcur, hk, hn,
      FileNode.deref_update_self (fs.current ++ [k]) fs.root t _ hderef, rfl, ?_, ?_, ?_⟩
    · intro hd
      simp [FileNode.isDirectory, hd]
    · intro hd
      simp only [FileNode.type_mk, FileNode.isDirectory, hd, decide_False, Bool.not_false,
        if_true]
      exact getFileTypeByExtension_eq_directory newName
    · intro q hq
      exact FileNode.deref_update_type (fs.current ++ [k]) fs.root t _ hderef rfl q hq

/-- Witness for C9, amended: the state after `touch a.txt 1`, where
`create("readme", false, 5)` makes a Directory. -/
theorem FileSystem.directory_category_witness :
    ∃ cur new : FileNode,
      (FileSystem.init.create "a.txt" false 1).2.root.deref [] = some cur ∧
      ((FileSystem.init.create "a.txt" false 1).2.create "readme" false 5).2.root.deref
        ([] ++ [cur.left.length]) = some new ∧
      new.name = "readme" ∧
      (new.type = FileType.DIRECTORY ↔ (false = true ∨ '.' ∉ "readme".data)) :=
  (FileSystem.directory_category (FileSystem.init.create "a.txt" false 1).2
    (FileSystem.Reachable.create _ "a.txt" false 1 FileSystem.Reachable.init)).2.2.1
    "readme" false 5 rfl

/-! ### Navigation -/

/-- The state after `goUp` away from the root. -/
theorem FileSystem.goUp_of_ne (fs : FileSystem) (h : fs.current ≠ []) :
    fs.goUp = (true, { fs with current := fs.current.dropLast }) := by
  unfold FileSystem.goUp
  rw [if_neg h]

theorem FileSystem.goUp_of_root (fs : FileSystem) (h : fs.current = []) :
    fs.goUp = (false, fs) := by
  unfold FileSystem.goUp
  rw [if_pos h]

/-- A pointer below the root is a child index behind the pointer to the
parent, and the parent holds the node as that child. -/
theorem FileNode.deref_parent (root cur : FileNode) (p : Ptr) (hp : p ≠ [])
    (hcur : root.deref p = some cur) :
    ∃ par, root.deref p.dropLast = some par ∧
      par.left[p.getLast hp]? = some cur := by
  have hsplit := List.dropLast_append_getLast hp
  rw [← hsplit, FileNode.deref_append] at hcur
  cases hpar : root.deref p.dropLast with
  | none => rw [hpar] at hcur; simp at hcur
  | some par =>
    rw [hpar] at hcur
    refine ⟨par, rfl, ?_⟩
    simp only [Option.some_bind, FileNode.deref_cons] at hcur
    cases hc : par.left[p.getLast hp]? with
    | none => rw [hc] at hcur; simp at hcur
    | some c =>
      rw [hc] at hcur
      simp only [Option.some_bind, FileNode.deref_nil] at hcur
      exact hcur

/-- C17: in every state of the program `goUp` returns false exactly when the
cursor is the root, and then the state is unchanged; otherwise it returns
true, the tree is unchanged, and the cursor, which was child number `i` of a
node `par` at the address `p`, becomes `p`, the parent of the former cursor
node.  On a freshly constructed file system `goUp` fails. -/
theorem FileSystem.goUp_spec (fs : FileSystem) (h : fs.Reachable) :
    ((fs.goUp).1 = false ↔ fs.current = []) ∧
    ((fs.goUp).1 = false → (fs.goUp).2 = fs) ∧
    ((fs.goUp).1 = true →
      (fs.goUp).2.root = fs.root ∧
      ∃ (p : Ptr) (i : Nat) (par cur : FileNode),
        fs.current = p ++ [i] ∧ fs.root.deref fs.current = some cur ∧
        fs.root.deref p = some par ∧ par.left[i]? = some cur ∧
        (fs.goUp).2.current = p) ∧
    FileSystem.init.goUp = (false, FileSystem.init) := by
  obtain ⟨-, cur, hcur, -⟩ := h.inv
  by_cases hroot : fs.current = []
  · rw [FileSystem.goUp_of_root fs hroot]
    exact ⟨by simp [hroot], fun _ => rfl, fun hf => (by cases hf), rfl⟩
  · rw [FileSystem.goUp_of_ne fs hroot]
    refine ⟨by simp [hroot], fun hf => (by cases hf), fun _ => ⟨rfl, ?_⟩, rfl⟩
    obtain ⟨par, hpar, hchild⟩ := FileNode.deref_parent fs.root cur fs.current hroot hcur
    exact ⟨fs.current.dropLast, fs.current.getLast hroot, par, cur,
      (List.dropLast_append_getLast hroot).symm, hcur, hpar, hchild, rfl⟩

/-- Witness for C17: `goUp` in the scenario after `cd docs`. -/
theorem FileSystem.goUp_spec_witness :
    ((FileSystem.scenario.enterDirectory "docs").2.goUp).2.root =
      (FileSystem.scenario.enterDirectory "docs").2.root :=
  ((FileSystem.goUp_spec (FileSystem.scenario.enterDirectory "docs").2
    (FileSystem.Reachable.enterDirectory _ "docs"
      (FileSystem.Reachable.goUp _ (FileSystem.Reachable.create _ "b.jpg" false 20
        (FileSystem.Reachable.create _ "a.txt" false 10
          (FileSystem.Reachable.enterDirectory _ "docs"
            (FileSystem.Reachable.create _ "docs" true 0
              FileSystem.Reachable.init))))))).2.2.1 rfl).1

/-- The outcomes of `enterDirectory` by what the lookup finds. -/
theorem FileSystem.enterDirectory_eq (fs : FileSystem) (name : String) (cur : FileNode)
    (hcur : fs.root.deref fs.current = some cur) :
    ((∀ c ∈ cur.left, c.name ≠ name) ∧ fs.enterDirectory name = (false, fs)) ∨
    (∃ k c, cur.left[k]? = some c ∧ c.name = name ∧
      (∀ j, j < k → ∀ c', cur.left[j]? = some c' → c'.name ≠ name) ∧
      ((c.type ≠ FileType.DIRECTORY ∧ fs.enterDirectory name = (false, fs)) ∨
       (c.type = FileType.DIRECTORY ∧
        fs.enterDirectory name = (true, { fs with current := fs.current ++ [k] })))) := by
  unfold FileSystem.enterDirectory
  rw [FileSystem.findInCurrentDir_eq fs name cur hcur]
  cases hf : FileSystem.findLoop cur.left name 0 with
  | none => exact Or.inl ⟨(FileSystem.findLoop_eq_none _ _ _).1 hf, rfl⟩
  | some r =>
    obtain ⟨k, c⟩ := r
    obtain ⟨j, hk, hj, hn, hfirst⟩ := FileSystem.findLoop_eq_some _ _ _ _ _ hf
    have hkj : k = j := by omega
    subst hkj
    refine Or.inr ⟨k, c, hj, hn, hfirst, ?_⟩
    by_cases hd : c.type = FileType.DIRECTORY
    · right
      simp [FileNode.isDirectory, hd]
    · left
      simp [FileNode.isDirectory, hd]

/-- C16: in every state of the program, with `cur` the current directory,
`enterDirectory` returns true exactly when `cur` has a child with the name
whose type is Directory; then the tree is unchanged and the cursor becomes
the address of that child.  When no child has the name, or the child with
the name is not a Directory, it returns false, and whenever it returns false
the state is unchanged. -/
theorem FileSystem.enterDirectory_spec (fs : FileSystem) (h : fs.Reachable) (name : String)
    (cur : FileNode) (hcur : fs.root.deref fs.current = some cur) :
    ((fs.enterDirectory name).1 = true ↔
      ∃ c ∈ cur.left, c.name = name ∧ c.type = FileType.DIRECTORY) ∧
    ((fs.enterDirectory name).1 = true →
      (fs.enterDirectory name).2.root = fs.root ∧
      ∃ k c, cur.left[k]? = some c ∧ c.name = name ∧ c.type = FileType.DIRECTORY ∧
        (fs.enterDirectory name).2.current = fs.current ++ [k] ∧
        (fs.enterDirectory name).2.root.deref (fs.enterDirectory name).2.current = some c) ∧
    ((fs.enterDirectory name).1 = false → (fs.enterDirectory name).2 = fs) ∧
    (((∀ c ∈ cur.left, c.name ≠ name) ∨
        (∃ c ∈ cur.left, c.name = name ∧ c.type ≠ FileType.DIRECTORY)) →
      fs.enterDirectory name = (false, fs)) := by
  have hcg : cur.Good := h.inv.1.of_deref _ _ hcur
  have huniq : ∀ (k : Nat) (c c' : FileNode), cur.left[k]? = some c → c.name = name →
      c' ∈ cur.left → c'.name = name → c' = c := by
    intro k c c' hk hn hc' hn'
    obtain ⟨j, hj⟩ := List.mem_iff_getElem?.1 hc'
    by_cases hjk : j = k
    · subst hjk
      rw [hj] at hk
      cases hk
      rfl
    · exact absurd (hn'.trans hn.symm) (hcg.name_ne j k c' c hj hk hjk)
  rcases FileSystem.enterDirectory_eq fs name cur hcur with
    ⟨habs, heq⟩ | ⟨k, c, hk, hn, -, ⟨hnd, heq⟩ | ⟨hd, heq⟩⟩
  · rw [heq]
    refine ⟨?_, fun hf => (by cases hf), fun _ => rfl, fun _ => rfl⟩
    simp only [Bool.false_eq_true, false_iff]
    rintro ⟨c, hc, hn, -⟩
    exact habs c hc hn
  · rw [heq]
    refine ⟨?_, fun hf => (by cases hf), fun _ => rfl, fun _ => rfl⟩
    simp only [Bool.false_eq_true, false_iff]
    rintro ⟨c', hc', hn', hd'⟩
    rw [huniq k c c' hk hn hc' hn'] at hd'
    exact hnd hd'
  · rw [heq]
    have hmem : c ∈ cur.left := List.mem_iff_getElem?.2 ⟨k, hk⟩
    refine ⟨?_, fun _ => ⟨rfl, k, c, hk, hn, hd, rfl, ?_⟩, fun hf => (by cases hf), ?_⟩
    · simp only [true_iff]
      exact ⟨c, hmem, hn, hd⟩
    · simp only
      rw [FileNode.deref_append, hcur]
      simp [FileNode.deref_cons, hk, FileNode.deref_nil]
    · rintro (habs | ⟨c', hc', hn', hd'⟩)
      · exact absurd hn (habs c hmem)
      · rw [huniq k c c' hk hn hc' hn'] at hd'
        exact absurd hd hd'

/-- Witness for C16: `cd docs` in the scenario. -/
theorem FileSystem.enterDirectory_spec_witness :
    (FileSystem.scenario.enterDirectory "docs").2.root = FileSystem.scenario.root :=
  ((FileSystem.enterDirectory_spec FileSystem.scenario
    (FileSystem.Reachable.goUp _ (FileSystem.Reachable.create _ "b.jpg" false 20
      (FileSystem.Reachable.create _ "a.txt" false 10
        (FileSystem.Reachable.enterDirectory _ "docs"
          (FileSystem.Reachable.create _ "docs" true 0 FileSystem.Reachable.init)))))
    "docs" _ rfl).2.1 rfl).1

/-- A successful `enterDirectory` puts one child index behind the cursor and
leaves the tree as it is. -/
theorem FileSystem.enterDirectory_of_true (fs : FileSystem) (name : String)
    (hs : (fs.enterDirectory name).1 = true) :
    ∃ k, (fs.enterDirectory name).2 = { fs with current := fs.current ++ [k] } := by
  unfold FileSystem.enterDirectory at hs ⊢
  cases hf : fs.findInCurrentDir name with
  | none => rw [hf] at hs; cases hs
  | some dir =>
    rw [hf] at hs
    simp only at hs ⊢
    by_cases hd : dir.2.isDirectory = true
    · simp only [hd, Bool.not_true, Bool.false_eq_true, if_false]
      exact ⟨dir.1, rfl⟩
    · simp [hd] at hs

/-- C15: whenever `enterDirectory(d)` succeeds, a following `goUp` succeeds
and gives back the state from before `enterDirectory(d)`: the same tree and
the same cursor; so `getCurrentPath` returns what it returned before. -/
theorem FileSystem.enterDirectory_goUp (fs : FileSystem) (d : String)
    (hs : (fs.enterDirectory d).1 = true) :
    ((fs.enterDirectory d).2.goUp).1 = true ∧
    ((fs.enterDirectory d).2.goUp).2 = fs ∧
    ((fs.enterDirectory d).2.goUp).2.getCurrentPath = fs.getCurrentPath := by
  obtain ⟨k, hk⟩ := FileSystem.enterDirectory_of_true fs d hs
  rw [hk]
  have hne : ({ fs with current := fs.current ++ [k] } : FileSystem).current ≠ [] := by
    simp
  rw [FileSystem.goUp_of_ne _ hne]
  have hback : ({ root := fs.root, current := (fs.current ++ [k]).dropLast } : FileSystem) =
      fs := by
    rw [List.dropLast_concat]
  exact ⟨rfl, hback, congrArg FileSystem.getCurrentPath hback⟩

/-- Witness for C15: `cd docs` and `cd ..` in the scenario. -/
theorem FileSystem.enterDirectory_goUp_witness :
    ((FileSystem.scenario.enterDirectory "docs").2.goUp).2 = FileSystem.scenario :=
  (FileSystem.enterDirectory_goUp FileSystem.scenario "docs" rfl).2.1

/-! ### `create` and `remove` of the same name -/

/-- C13: in a state whose cursor designates a node `cur` without a child
named `n`, `create(n, isDirectory, size)` followed by `remove(n)` both succeed
and give back the state from before the `create`: the same tree, with the
same children of the current directory in the same order, and the same
cursor. -/
theorem FileSystem.create_remove (fs : FileSystem) (n : String) (isDirectory : Bool)
    (size : Int) (cur : FileNode) (hcur : fs.root.deref fs.current = some cur)
    (habs : ∀ c ∈ cur.left, c.name ≠ n) :
    (fs.create n isDirectory size).1 = true ∧
    ((fs.create n isDirectory size).2.remove n).1 = true ∧
    ((fs.create n isDirectory size).2.remove n).2 = fs := by
  rw [FileSystem.create_of_absent fs n isDirectory size cur hcur habs]
  have hcur1 := FileNode.deref_update_self fs.current fs.root cur (fun cur =>
      FileNode.mk cur.name cur.type cur.size
        (cur.left ++ [FileNode.mk n
          (if isDirectory then FileType.DIRECTORY else getFileTypeByExtension n)
          size []])) hcur
  obtain ⟨k, c, hk, hn, -, heq⟩ := FileSystem.remove_of_found
    ⟨fs.root.update fs.current (fun cur =>
      FileNode.mk cur.name cur.type cur.size
        (cur.left ++ [FileNode.mk n
          (if isDirectory then FileType.DIRECTORY else getFileTypeByExtension n)
          size []])), fs.current⟩ n _ hcur1
    ⟨FileNode.mk n (if isDirectory then FileType.DIRECTORY else getFileTypeByExtension n)
      size [], by simp, rfl⟩
  simp only [FileNode.left_mk] at hk
  have hklen : k = cur.left.length := by
    rcases Nat.lt_trichotomy k cur.left.length with hlt | heq' | hgt
    · rw [List.getElem?_append_left hlt] at hk
      exact absurd hn (habs c (List.mem_iff_getElem?.2 ⟨k, hk⟩))
    · exact heq'
    · rw [List.getElem?_eq_none (by simp; omega)] at hk
      cases hk
  subst hklen
  simp only at heq ⊢
  rw [heq]
  refine ⟨trivial, rfl, ?_⟩
  simp only
  rw [FileNode.update_update]
  have hfix : ((fun d : FileNode => FileNode.mk d.name d.type d.size
        (d.left.eraseIdx cur.left.length)) ∘
      (fun cur : FileNode => FileNode.mk cur.name cur.type cur.size
        (cur.left ++ [FileNode.mk n
          (if isDirectory then FileType.DIRECTORY else getFileTypeByExtension n)
          size []]))) cur = cur := by
    simp only [Function.comp_apply, FileNode.name_mk, FileNode.type_mk, FileNode.size_mk,
      FileNode.left_mk]
    rw [List.eraseIdx_append_of_length_le (Nat.le_refl _), Nat.sub_self]
    simp [FileNode.mk_eta]
  rw [FileNode.update_of_fixed fs.current fs.root cur _ hcur hfix]

/-- Witness for C13: `mkdir tmp` and `rm tmp` in the scenario. -/
theorem FileSystem.create_remove_witness :
    ((FileSystem.scenario.create "tmp" true 0).2.remove "tmp").2 = FileSystem.scenario :=
  (FileSystem.create_remove FileSystem.scenario "tmp" true 0
    (FileNode.mk "root" FileType.DIRECTORY 0
      [FileNode.mk "docs" FileType.DIRECTORY 0
        [FileNode.mk "a.txt" FileType.TEXT 10 [],
         FileNode.mk "b.jpg" FileType.IMAGE 20 []]]) rfl
    (by intro c hc; simp at hc; rw [hc]; decide)).2.2

/-! ### The cursor and the names of siblings in the states of the program -/

/-- The node at `cur` is outside every subtree unlinked from the chain of
`cur`, and keeps its address. -/
theorem Ptr.afterRemove_self (cur : Ptr) (k : Nat) : Ptr.afterRemove cur k cur = some cur := by
  induction cur with
  | nil => rfl
  | cons i cur ih => simp [Ptr.afterRemove, ih]

/-- C11: in every state of the program the cursor designates a node of the
tree, reached from the root along the chains of children, and that node is a
Directory; a `remove` unlinks a subtree that does not hold the cursor, whose
node keeps its address; in the freshly constructed file system the cursor is
the root. -/
theorem FileSystem.cursor_live (fs : FileSystem) (h : fs.Reachable) :
    (∃ cur, fs.root.deref fs.current = some cur ∧ cur.type = FileType.DIRECTORY) ∧
    (∀ name : String,
      ∃ cur, (fs.remove name).2.root.deref (fs.remove name).2.current = some cur ∧
        cur.type = FileType.DIRECTORY) ∧
    (∀ k : Nat, ¬ (fs.current ++ [k]) <+: fs.current ∧
      Ptr.afterRemove fs.current k fs.current = some fs.current) ∧
    FileSystem.init.current = [] ∧
    FileSystem.init.root.deref FileSystem.init.current = some FileSystem.init.root := by
  refine ⟨h.inv.2, fun name => (h.inv.after_remove name).2, ?_, rfl, rfl⟩
  intro k
  refine ⟨?_, Ptr.afterRemove_self fs.current k⟩
  intro hp
  have := hp.length_le
  simp at this

/-- Witness for C11: the scenario after `cd docs`, `rm a.txt`. -/
theorem FileSystem.cursor_live_witness :
    ∃ cur, ((FileSystem.scenario.enterDirectory "docs").2.remove "a.txt").2.root.deref
        ((FileSystem.scenario.enterDirectory "docs").2.remove "a.txt").2.current = some cur ∧
      cur.type = FileType.DIRECTORY :=
  (FileSystem.cursor_live ((FileSystem.scenario.enterDirectory "docs").2.remove "a.txt").2
    (FileSystem.Reachable.remove _ "a.txt" (FileSystem.Reachable.enterDirectory _ "docs"
      (FileSystem.Reachable.goUp _ (FileSystem.Reachable.create _ "b.jpg" false 20
        (FileSystem.Reachable.create _ "a.txt" false 10
          (FileSystem.Reachable.enterDirectory _ "docs"
            (FileSystem.Reachable.create _ "docs" true 0
              FileSystem.Reachable.init)))))))).1

/-- C12: in every state of the program the names of the children of any one
node are pairwise distinct: the list of the names has no repetition, and two
different places of one chain hold different names. -/
theorem FileSystem.sibling_names_distinct (fs : FileSystem) (h : fs.Reachable)
    (p : Ptr) (n : FileNode) (hn : fs.root.deref p = some n) :
    (n.left.map FileNode.name).Nodup ∧
    ∀ (i j : Nat) (c d : FileNode), n.left[i]? = some c → n.left[j]? = some d → i ≠ j →
      c.name ≠ d.name := by
  have hng : n.Good := h.inv.1.of_deref p n hn
  exact ⟨hng.names, fun i j c d hi hj hij => hng.name_ne i j c d hi hj hij⟩

/-- Witness for C12: the directory `docs` of the scenario. -/
theorem FileSystem.sibling_names_distinct_witness :
    ([FileNode.mk "a.txt" FileType.TEXT 10 [],
      FileNode.mk "b.jpg" FileType.IMAGE 20 []].map FileNode.name).Nodup :=
  (FileSystem.sibling_names_distinct FileSystem.scenario
    (FileSystem.Reachable.goUp _ (FileSystem.Reachable.create _ "b.jpg" false 20
      (FileSystem.Reachable.create _ "a.txt" false 10
        (FileSystem.Reachable.enterDirectory _ "docs"
          (FileSystem.Reachable.create _ "docs" true 0 FileSystem.Reachable.init)))))
    [0]
    (FileNode.mk "docs" FileType.DIRECTORY 0
      [FileNode.mk "a.txt" FileType.TEXT 10 [], FileNode.mk "b.jpg" FileType.IMAGE 20 []])
    rfl).1

/-! ### `calculateSize` twice -/

/-- On the tree it leaves behind, `calculateSize` returns the same value and
changes nothing. -/
theorem FileNode.calculateSize_calculateSize (n : FileNode) :
    (n.calculateSize).2.calculateSize = ((n.calculateSize).1, (n.calculateSize).2) := by
  refine FileNode.induction_on (P := fun n =>
    (n.calculateSize).2.calculateSize = ((n.calculateSize).1, (n.calculateSize).2)) ?_ n
  intro name type size left ih
  by_cases ht : type = FileType.DIRECTORY
  · rw [FileNode.calculateSize_of_dir (FileNode.mk name type size left) ht]
    simp only [FileNode.name_mk, FileNode.type_mk, FileNode.left_mk]
    rw [FileNode.calculateSize_of_dir _ (by simpa using ht)]
    simp only [FileNode.name_mk, FileNode.type_mk, FileNode.left_mk, List.map_map]
    have h1 : left.map ((fun c => (FileNode.calculateSize c).1) ∘
        (fun c => (FileNode.calculateSize c).2)) =
        left.map (fun c => (FileNode.calculateSize c).1) := by
      apply List.map_congr_left
      intro c hc
      simp only [Function.comp_apply]
      rw [ih c hc]
    have h2 : left.map ((fun c => (FileNode.calculateSize c).2) ∘
        (fun c => (FileNode.calculateSize c).2)) =
        left.map (fun c => (FileNode.calculateSize c).2) := by
      apply List.map_congr_left
      intro c hc
      simp only [Function.comp_apply]
      rw [ih c hc]
    rw [h1, h2]
  · rw [FileNode.calculateSize_of_not_dir (FileNode.mk name type size left) ht]
    simp only
    rw [FileNode.calculateSize_of_not_dir (FileNode.mk name type size left) ht]

theorem FileSystem.calculateSize_root_eq (fs : FileSystem) :
    fs.calculateSize [] =
      ((fs.root.calculateSize).1, { fs with root := (fs.root.calculateSize).2 }) := by
  unfold FileSystem.calculateSize
  rw [FileNode.deref_nil]
  simp only
  rw [FileNode.update_nil]

/-- C20: on every tree a second `calculateSize(root)` right after a first one
returns the value the first returned and leaves the state, every stored size
included, exactly as the first call left it.  In the scenario both calls
return 30. -/
theorem FileSystem.calculateSize_idempotent (fs : FileSystem) :
    (fs.calculateSize []).2.calculateSize [] =
      ((fs.calculateSize []).1, (fs.calculateSize []).2) ∧
    (FileSystem.scenario.calculateSize []).1 = 30 ∧
    ((FileSystem.scenario.calculateSize []).2.calculateSize []).1 = 30 := by
  refine ⟨?_, rfl, rfl⟩
  rw [FileSystem.calculateSize_root_eq fs, FileSystem.calculateSize_root_eq]
  simp only
  rw [FileNode.calculateSize_calculateSize]

/-! ### `getCurrentPath` -/

/-- A write whose function keeps names keeps the name of the root. -/
theorem FileNode.update_name_of_keeps (root : FileNode) (p : Ptr) (f : FileNode → FileNode)
    (hf : ∀ d, (f d).name = d.name) : (root.update p f).name = root.name := by
  cases p with
  | nil => rw [FileNode.update_nil, hf]
  | cons i p => rw [FileNode.update_cons]; rfl

/-- A write below the root keeps the name of the root. -/
theorem FileNode.update_name_of_below (root : FileNode) (p : Ptr) (i : Nat)
    (f : FileNode → FileNode) : (root.update (p ++ [i]) f).name = root.name := by
  cases p with
  | nil => rw [List.nil_append, FileNode.update_cons]; rfl
  | cons j p => rw [List.cons_append, FileNode.update_cons]; rfl

/-- In every state of the program the root carries the name `root`. -/
theorem FileSystem.Reachable.root_name {fs : FileSystem} (h : fs.Reachable) :
    fs.root.name = "root" := by
  induction h with
  | init => rfl
  | create fs name isDirectory size _ ih =>
    unfold FileSystem.create
    split
    · exact ih
    · simp only
      rw [FileNode.update_name_of_keeps]
      · exact ih
      · intro d
        cases d.left <;> rfl
  | remove fs name _ ih =>
    unfold FileSystem.remove
    split
    · exact ih
    · simp only
      rw [FileNode.update_name_of_keeps]
      · exact ih
      · intro d
        split <;> rfl
  | rename fs oldName newName _ ih =>
    unfold FileSystem.rename
    split
    · exact ih
    · split
      · exact ih
      · simp only
        rw [FileNode.update_name_of_below]
        exact ih
  | enterDirectory fs name _ ih =>
    unfold FileSystem.enterDirectory
    split
    · exact ih
    · split <;> exact ih
  | goUp fs _ ih =>
    unfold FileSystem.goUp
    split <;> exact ih
  | calculateSize fs node _ ih =>
    unfold FileSystem.calculateSize
    split
    · exact ih
    · simp only
      rw [FileNode.update_name_of_keeps]
      · exact ih
      · intro d
        exact FileNode.calculateSize_name d

/-- C14, counterexample: on the freshly constructed file system the cursor is
the root and `getCurrentPath` returns `/root`, which is not `/`. -/
theorem FileSystem.getCurrentPath_root_counterexample :
    FileSystem.init.current = [] ∧
    FileSystem.init.getCurrentPath = "/root" ∧
    FileSystem.init.getCurrentPath ≠ "/" :=
  ⟨rfl, by decide, by decide⟩

/-- C14, amended: in every state of the program in which the cursor is the
root, `getCurrentPath` returns the string `/root`, a `'/'` followed by the
name of the root. -/
theorem FileSystem.getCurrentPath_root (fs : FileSystem) (h : fs.Reachable)
    (hroot : fs.current = []) : fs.getCurrentPath = "/root" := by
  unfold FileSystem.getCurrentPath
  rw [hroot]
  simp only [List.reverse_nil, FileSystem.pushNamesUp, h.root_name]
  decide

/-- Witness for C14, amended: the scenario, whose last command is `cd ..`. -/
theorem FileSystem.getCurrentPath_root_witness :
    FileSystem.scenario.getCurrentPath = "/root" :=
  FileSystem.getCurrentPath_root FileSystem.scenario
    (FileSystem.Reachable.goUp _ (FileSystem.Reachable.create _ "b.jpg" false 20
      (FileSystem.Reachable.create _ "a.txt" false 10
        (FileSystem.Reachable.enterDirectory _ "docs"
          (FileSystem.Reachable.create _ "docs" true 0 FileSystem.Reachable.init)))))
    rfl

/-! ### The sign of the stored sizes -/

theorem FileNode.sizesNonneg_mk (name : String) (type : FileType) (size : Int)
    (left : List FileNode) :
    (FileNode.mk name type size left).SizesNonneg ↔
      0 ≤ size ∧ ∀ c ∈ left, FileNode.SizesNonneg c := by
  constructor
  · intro h
    refine ⟨h [] _ (FileNode.deref_nil _), ?_⟩
    intro c hc p m hm
    obtain ⟨i, hi⟩ := List.mem_iff_getElem?.1 hc
    apply h (i :: p) m
    rw [FileNode.deref_cons]
    simp [hi, hm]
  · rintro ⟨hs, hl⟩ p m hm
    cases p with
    | nil =>
      rw [FileNode.deref_nil] at hm
      cases hm
      exact hs
    | cons i p =>
      rw [FileNode.deref_cons] at hm
      simp only [FileNode.left_mk] at hm
      cases hc : left[i]? with
      | none => rw [hc] at hm; simp at hm
      | some c =>
        rw [hc] at hm
        exact hl c (List.mem_iff_getElem?.2 ⟨i, hc⟩) p m (by simpa using hm)

theorem FileNode.SizesNonneg.node {n : FileNode} (h : n.SizesNonneg) :
    0 ≤ n.size ∧ ∀ c ∈ n.left, FileNode.SizesNonneg c := by
  cases n with
  | mk name type size left => exact (FileNode.sizesNonneg_mk name type size left).1 h

/-- A write that stores a subtree without negative sizes keeps the tree
without negative sizes. -/
theorem FileNode.SizesNonneg.after_write {root : FileNode} (h : root.SizesNonneg) (p : Ptr)
    (f : FileNode → FileNode)
    (hf : ∀ d, root.deref p = some d → d.SizesNonneg → (f d).SizesNonneg) :
    (root.update p f).SizesNonneg := by
  induction p generalizing root with
  | nil =>
    rw [FileNode.update_nil]
    exact hf root (FileNode.deref_nil root) h
  | cons i p ih =>
    rw [FileNode.update_cons, FileNode.sizesNonneg_mk]
    refine ⟨h.node.1, ?_⟩
    intro c hc
    obtain ⟨j, hj⟩ := List.mem_iff_getElem?.1 hc
    rw [List.getElem?_modify] at hj
    cases hd : root.left[j]? with
    | none => rw [hd] at hj; simp at hj
    | some d =>
      rw [hd] at hj
      have hdn : d.SizesNonneg := h.node.2 d (List.mem_iff_getElem?.2 ⟨j, hd⟩)
      by_cases hij : i = j
      · simp only [hij, if_true, Option.map_eq_map, Option.map_some', Option.some.injEq] at hj
        rw [← hj]
        apply ih hdn
        intro d' hd'
        apply hf d'
        rw [FileNode.deref_cons, hij, hd]
        exact hd'
      · simp only [hij, if_false, Option.map_eq_map, Option.map_some', Option.some.injEq] at hj
        rw [← hj]
        exact hdn

/-- Without negative sizes, the sizes of the nodes that are not Directories
sum to a value that is not negative. -/
theorem FileNode.SizesNonneg.fileSizes_nonneg {n : FileNode} (h : n.SizesNonneg) :
    0 ≤ n.fileSizes := by
  unfold FileNode.fileSizes
  apply List.sum_nonneg
  intro x hx
  obtain ⟨y, hy, rfl⟩ := List.mem_map.1 hx
  have hmem := (List.mem_filter.1 hy).1
  exact h y.1 y.2 ((FileNode.mem_nodes_root n y.1 y.2).1 hmem)

/-- In a well-formed subtree without negative sizes whose files sum to less
than `2^31`, `calculateSize` leaves no negative size behind. -/
theorem FileNode.SizesNonneg.after_calculateSize_node (n : FileNode) :
    n.Good → n.SizesNonneg → n.fileSizes < 2147483648 → (n.calculateSize).2.SizesNonneg := by
  refine FileNode.induction_on (P := fun n =>
    n.Good → n.SizesNonneg → n.fileSizes < 2147483648 →
      (n.calculateSize).2.SizesNonneg) ?_ n
  intro name type size left ih hg h hlt
  by_cases ht : type = FileType.DIRECTORY
  · have hval := (hg.calculateSize_fst _).2.1 ht
    have hnn := h.fileSizes_nonneg
    rw [wrapInt_of_range _ (by omega) hlt] at hval
    rw [FileNode.calculateSize_of_dir (FileNode.mk name type size left) ht] at hval ⊢
    simp only [FileNode.name_mk, FileNode.type_mk, FileNode.left_mk] at hval ⊢
    refine (FileNode.sizesNonneg_mk _ _ _ _).2 ⟨by rw [hval]; exact hnn, ?_⟩
    intro c' hc'
    obtain ⟨c, hc, rfl⟩ := List.mem_map.1 hc'
    refine ih c hc (hg.children c hc) (h.node.2 c hc) ?_
    have hle : c.fileSizes ≤ (left.map FileNode.fileSizes).sum := by
      apply List.single_le_sum
      · intro x hx
        obtain ⟨d, hd, rfl⟩ := List.mem_map.1 hx
        exact (h.node.2 d hd).fileSizes_nonneg
      · exact List.mem_map.2 ⟨c, hc, rfl⟩
    rw [FileNode.fileSizes_of_dir name type size left ht] at hlt
    omega
  · rw [FileNode.calculateSize_of_not_dir (FileNode.mk name type size left) ht]
    exact h

/-- The states reached with the restrictions on `create` and `calculateSize`
are states of the program. -/
theorem FileSystem.ReachableNonneg.reachable {fs : FileSystem} (h : fs.ReachableNonneg) :
    fs.Reachable := by
  induction h with
  | init => exact FileSystem.Reachable.init
  | create fs name isDirectory size _ _ ih =>
    exact FileSystem.Reachable.create fs name isDirectory size ih
  | remove fs name _ ih => exact FileSystem.Reachable.remove fs name ih
  | rename fs oldName newName _ ih => exact FileSystem.Reachable.rename fs oldName newName ih
  | enterDirectory fs name _ ih => exact FileSystem.Reachable.enterDirectory fs name ih
  | goUp fs _ ih => exact FileSystem.Reachable.goUp fs ih
  | calculateSize fs node _ _ ih => exact FileSystem.Reachable.calculateSize fs node ih

/-- C18, counterexample: on a fresh file system `create("x.txt", false, -5)`,
which is what `touch x.txt -5` calls, succeeds and the node it creates stores
the size -5.  And after `touch big.txt 2147483647`, `touch one.txt 1`, two
sizes that are not negative, `calculateSize(root)` stores -2147483648 in the
root. -/
theorem FileSystem.sizes_nonneg_counterexample :
    (FileSystem.init.create "x.txt" false (-5)).1 = true ∧
    (FileSystem.init.create "x.txt" false (-5)).2.root.deref [0] =
      some (FileNode.mk "x.txt" FileType.TEXT (-5) []) ∧
    (FileNode.mk "x.txt" FileType.TEXT (-5) []).size < 0 ∧
    FileSystem.overflowScenario.root =
      FileNode.mk "root" FileType.DIRECTORY 0
        [FileNode.mk "big.txt" FileType.TEXT 2147483647 [],
         FileNode.mk "one.txt" FileType.TEXT 1 []] ∧
    (FileSystem.overflowScenario.calculateSize []).2.root.size = -2147483648 ∧
    (-2147483648 : Int) < 0 :=
  ⟨rfl, rfl, by decide, rfl, by decide, by decide⟩

/-- C18, amended: in every state reached from a freshly constructed file
system by `create` calls whose size argument is not negative, by `remove`,
`rename`, `enterDirectory` and `goUp` calls, and by `calculateSize` calls on
nodes below which the sizes of the nodes that are not Directories sum to less
than `2^31`, every node of the tree stores a size that is not negative. -/
theorem FileSystem.sizes_nonneg (fs : FileSystem) (h : fs.ReachableNonneg) :
    ∀ (p : Ptr) (n : FileNode), fs.root.deref p = some n → 0 ≤ n.size := by
  have hall : fs.root.SizesNonneg := by
    induction h with
    | init =>
      exact (FileNode.sizesNonneg_mk _ _ _ _).2 ⟨Int.le_refl 0, by simp⟩
    | create fs name isDirectory size hsize _ ih =>
      unfold FileSystem.create
      split
      · exact ih
      · simp only
        apply ih.after_write
        intro d _ hd
        have hnew : (FileNode.mk name
            (if isDirectory then FileType.DIRECTORY else getFileTypeByExtension name)
            size []).SizesNonneg :=
          (FileNode.sizesNonneg_mk _ _ _ _).2 ⟨hsize, by simp⟩
        cases hl : d.left with
        | nil =>
          simp only
          refine (FileNode.sizesNonneg_mk _ _ _ _).2 ⟨hd.node.1, ?_⟩
          intro c hc
          simp only [List.mem_singleton] at hc
          rw [hc]
          exact hnew
        | cons temp right =>
          simp only
          rw [FileSystem.linkAfterLast_eq]
          refine (FileNode.sizesNonneg_mk _ _ _ _).2 ⟨hd.node.1, ?_⟩
          intro c hc
          rcases List.mem_append.1 hc with hc | hc
          · exact hd.node.2 c (by rw [hl]; exact hc)
          · simp only [List.mem_singleton] at hc
            rw [hc]
            exact hnew
    | remove fs name _ ih =>
      unfold FileSystem.remove
      split
      · exact ih
      · simp only
        apply ih.after_write
        intro d _ hd
        rw [FileSystem.remove_chain_eq]
        refine (FileNode.sizesNonneg_mk _ _ _ _).2 ⟨hd.node.1, ?_⟩
        intro c hc
        exact hd.node.2 c ((List.eraseIdx_sublist _ _).subset hc)
    | rename fs oldName newName _ ih =>
      unfold FileSystem.rename
      split
      · exact ih
      · split
        · exact ih
        · simp only
          apply ih.after_write
          intro d _ hd
          exact (FileNode.sizesNonneg_mk _ _ _ _).2 hd.node
    | enterDirectory fs name _ ih =>
      unfold FileSystem.enterDirectory
      split
      · exact ih
      · split <;> exact ih
    | goUp fs _ ih =>
      unfold FileSystem.goUp
      split <;> exact ih
    | calculateSize fs node hsum hr ih =>
      unfold FileSystem.calculateSize
      split
      · exact ih
      · simp only
        apply ih.after_write
        intro d hderef hd
        exact FileNode.SizesNonneg.after_calculateSize_node d
          (hr.reachable.inv.1.of_deref node d hderef) hd (hsum d hderef)
  exact hall

/-- Witness for C18, amended: the directory `docs` of the scenario after
`calculateSize(root)`. -/
theorem FileSystem.sizes_nonneg_witness :
    (0 : Int) ≤ (FileNode.mk "docs" FileType.DIRECTORY 30
      [FileNode.mk "a.txt" FileType.TEXT 10 [],
       FileNode.mk "b.jpg" FileType.IMAGE 20 []]).size :=
  FileSystem.sizes_nonneg (FileSystem.scenario.calculateSize []).2
    (FileSystem.ReachableNonneg.calculateSize FileSystem.scenario []
      (fun n hn => by
        have hroot : FileSystem.scenario.root = n := Option.some.inj hn
        rw [← hroot]
        decide)
      (FileSystem.ReachableNonneg.goUp _
        (FileSystem.ReachableNonneg.create _ "b.jpg" false 20 (by decide)
          (FileSystem.ReachableNonneg.create _ "a.txt" false 10 (by decide)
            (FileSystem.ReachableNonneg.enterDirectory _ "docs"
              (FileSystem.ReachableNonneg.create _ "docs" true 0 (by decide)
                FileSystem.ReachableNonneg.init))))))
    [0]
    (FileNode.mk "docs" FileType.DIRECTORY 30
      [FileNode.mk "a.txt" FileType.TEXT 10 [],
       FileNode.mk "b.jpg" FileType.IMAGE 20 []]) rfl

/-! ### The paths `searchFile` shows -/

/-- C19: in the scenario the search for `a.txt` finds the node `a.txt` inside
`docs`, at the address `[0, 0]`, and `searchFile` shows it as `/root/a.txt`:
the loop that builds the string starts at `path.size() - 2` and so leaves out
`docs`, the entry of `path` next to the root.  The search for `docs` shows the
directory `docs` as `/root`.  The absolute paths are `/root/docs/a.txt` and
`/root/docs`. -/
theorem FileSystem.searchFile_scenario :
    FileSystem.scenario.searchByName [] "a.txt" [] = [[0, 0]] ∧
    FileSystem.pushNamesBelowRoot FileSystem.scenario.root [0, 0] = ["a.txt", "docs"] ∧
    FileSystem.scenario.searchFile "a.txt" = ["/root/a.txt"] ∧
    FileSystem.scenario.searchFile "a.txt" ≠ ["/root/docs/a.txt"] ∧
    FileSystem.scenario.searchFile "docs" = ["/root"] ∧
    FileSystem.scenario.searchFile "docs" ≠ ["/root/docs"] :=
  ⟨by decide, by decide, by decide, by decide, by decide, by decide⟩
